import Mathlib

/-!
Verification development for the hybrid retrieval fusion engine of the
Cognitive-Companion-Agent repository.

The Python modules `search_enhancements.py`, `enhanced_hybrid_search.py`,
`dynamic_weighting.py`, `keyword_search.py`, `production_search.py` and
`cached_advanced_search.py` are shallowly embedded below.  External
collaborators (the Pinecone-backed vector search, the BM25 library, NLTK,
the LLM, the system clock and Python's hash-dependent `set` iteration
order) are modelled as explicit function parameters ("oracles").  Python
floats are modelled by exact rationals `ℚ`; Python dicts by association
lists that preserve insertion order, exactly as CPython dicts do.
-/

namespace CCA

/-- The characters stripped by Python's `str.strip()` / matched by `\s`
(ASCII fragment, which is all the repository's code paths exercise). -/
def pyIsSpace (c : Char) : Bool :=
  c = ' ' || c = '\t' || c = '\n' || c = '\x0d' || c = '\x0b' || c = '\x0c'

/-- Python `str.strip()`. -/
def pyStrip (s : String) : String :=
  ⟨(s.toList.dropWhile pyIsSpace).reverse.dropWhile pyIsSpace |>.reverse⟩

/-- Python `str.split()` with no argument: split on whitespace runs,
discarding empty fields. -/
def pySplitAux : List Char → List Char → List String
  | acc, [] => if acc.isEmpty then [] else [⟨acc.reverse⟩]
  | acc, c :: rest =>
    if pyIsSpace c then
      if acc.isEmpty then pySplitAux [] rest else ⟨acc.reverse⟩ :: pySplitAux [] rest
    else pySplitAux (c :: acc) rest

def pySplit (s : String) : List String := pySplitAux [] s.toList

/-- Python `needle in haystack` on strings (substring containment). -/
def pyInAux (needle : List Char) : List Char → Bool
  | [] => needle.isPrefixOf []
  | c :: rest => needle.isPrefixOf (c :: rest) || pyInAux needle rest

def pyIn (needle haystack : String) : Bool :=
  pyInAux needle.toList haystack.toList

/-- Python `str.lower()` (ASCII fragment). -/
def pyLower (s : String) : String := ⟨s.toList.map Char.toLower⟩

/-- Python `s.startswith(pre)`. -/
def pyStartsWith (s pre : String) : Bool := pre.toList.isPrefixOf s.toList

/-- Python `s.replace(pat, rep)`: all non-overlapping occurrences, left
to right.  (The repository never calls `replace` with an empty pattern;
here an empty pattern replaces nothing.) -/
def pyReplaceAux (pat rep : List Char) : Nat → List Char → List Char
  | 0, s => s
  | _, [] => []
  | Nat.succ fuel, c :: rest =>
    if pat ≠ [] && pat.isPrefixOf (c :: rest) then
      rep ++ pyReplaceAux pat rep fuel ((c :: rest).drop pat.length)
    else c :: pyReplaceAux pat rep fuel rest

def pyReplace (s pat rep : String) : String :=
  ⟨pyReplaceAux pat.toList rep.toList s.toList.length s.toList⟩

/-- Python `' '.join`. -/
def pyJoinAux : List String → List Char
  | [] => []
  | [s] => s.toList
  | s :: rest => s.toList ++ ' ' :: pyJoinAux rest

def pyJoin (l : List String) : String := ⟨pyJoinAux l⟩

/-- Metadata dictionaries are opaque payloads; we model them as ordered
key/value association lists (`{}` is `[]`). -/
abbrev Meta := List (String × String)

/-- One `(doc_id, text, metadata)` hit, the triple shape used by
`vec_memory.search` and `enhanced_search`. -/
abbrev Cand := String × String × Meta

/-- One `(doc_id, bm25_score, content)` hit from `KeywordSearchIndex.search`. -/
abbrev KwHit := String × ℚ × String

/-! ### Insertion-ordered dictionaries (CPython dict semantics)

A CPython `dict` preserves insertion order; assigning to an existing key
updates the value in place, assigning to a fresh key appends. -/

/-- Dict lookup `m[k]` / `m.get(k)`. -/
def lookupA {α : Type} (m : List (String × α)) (k : String) : Option α :=
  match m with
  | [] => none
  | (k', v) :: rest => if k' = k then some v else lookupA rest k

/-- Dict lookup with default. -/
def lookupD {α : Type} (m : List (String × α)) (k : String) (d : α) : α :=
  (lookupA m k).getD d

/-- Dict membership `k in m`. -/
def hasKey {α : Type} (m : List (String × α)) (k : String) : Bool :=
  (lookupA m k).isSome

/-- Dict assignment `m[k] = v`: update in place, else append. -/
def setA {α : Type} (m : List (String × α)) (k : String) (v : α) :
    List (String × α) :=
  match m with
  | [] => [(k, v)]
  | (k', v') :: rest =>
    if k' = k then (k', v) :: rest else (k', v') :: setA rest k v

/-- The idiom `if k not in m: m[k] = 0` followed by `m[k] += v`
(equivalently `defaultdict(float)`'s `m[k] += v`). -/
def bump (m : List (String × ℚ)) (k : String) (v : ℚ) : List (String × ℚ) :=
  match m with
  | [] => [(k, v)]
  | (k', x) :: rest =>
    if k' = k then (k', x + v) :: rest else (k', x) :: bump rest k v

/-- Keys of a dict, in insertion order. -/
def keysA {α : Type} (m : List (String × α)) : List String := m.map Prod.fst

/-- Values of a dict, in insertion order (`m.values()`). -/
def valuesA {α : Type} (m : List (String × α)) : List α := m.map Prod.snd

@[simp] theorem lookupA_nil {α : Type} (k : String) :
    lookupA ([] : List (String × α)) k = none := rfl

@[simp] theorem lookupA_cons {α : Type} (k' : String) (v : α) (rest : List (String × α))
    (k : String) :
    lookupA ((k', v) :: rest) k = if k' = k then some v else lookupA rest k := rfl

theorem lookupA_bump (m : List (String × ℚ)) (k : String) (v : ℚ) (k' : String) :
    lookupA (bump m k v) k' =
      if k = k' then some ((lookupA m k').getD 0 + v) else lookupA m k' := by
  induction m with
  | nil =>
    by_cases h : k = k' <;> simp [bump, h, zero_add]
  | cons hd tl ih =>
    obtain ⟨a, x⟩ := hd
    by_cases hak : a = k
    · subst hak
      by_cases hk' : a = k' <;> simp [bump, hk', add_comm]
    · by_cases hk' : a = k'
      · subst hk'
        have hkk : ¬ k = a := fun h => hak h.symm
        simp [bump, hak, hkk]
      · simp [bump, hak, hk', ih]

theorem hasKey_of_mem_keysA {α : Type} (m : List (String × α)) (k : String)
    (h : k ∈ keysA m) : hasKey m k = true := by
  induction m with
  | nil => simp [keysA] at h
  | cons hd tl ih =>
    obtain ⟨b, x⟩ := hd
    rw [keysA, List.map_cons] at h
    rcases List.mem_cons.mp h with h1 | h1
    · subst h1
      simp [hasKey, lookupA]
    · by_cases hbk : b = k
      · simp [hasKey, lookupA, hbk]
      · have := ih h1
        simpa [hasKey, lookupA, hbk] using this

theorem keysA_bump (m : List (String × ℚ)) (k : String) (v : ℚ) :
    keysA (bump m k v) = if hasKey m k then keysA m else keysA m ++ [k] := by
  induction m with
  | nil => simp [bump, keysA, hasKey, lookupA]
  | cons hd tl ih =>
    obtain ⟨a, x⟩ := hd
    by_cases hak : a = k
    · subst hak; simp [bump, keysA, hasKey, lookupA]
    · have hkeys : keysA (bump ((a, x) :: tl) k v) = a :: keysA (bump tl k v) := by
        simp [bump, hak, keysA]
      have hhk : hasKey ((a, x) :: tl) k = hasKey tl k := by
        simp [hasKey, lookupA, hak]
      rw [hkeys, hhk, ih]
      by_cases hm : hasKey tl k = true
      · simp [hm, keysA]
      · simp only [Bool.not_eq_true] at hm
        simp [hm, keysA]

theorem hasKey_bump (m : List (String × ℚ)) (k : String) (v : ℚ) (k' : String) :
    hasKey (bump m k v) k' = (hasKey m k' || k = k') := by
  simp only [hasKey, lookupA_bump]
  by_cases h : k = k' <;> simp [h]

theorem nodup_keysA_bump (m : List (String × ℚ)) (k : String) (v : ℚ)
    (h : (keysA m).Nodup) : (keysA (bump m k v)).Nodup := by
  rw [keysA_bump]
  by_cases hm : hasKey m k
  · simpa [hm]
  · simp only [hm, if_false]
    refine List.Nodup.append h (List.nodup_singleton k) ?_
    intro a ha hb
    simp at hb
    rw [hb] at ha
    exact absurd (hasKey_of_mem_keysA m k ha) (by simpa using hm)

/-! ### Stable descending sort (Python `sorted(..., reverse=True)` /
`list.sort(reverse=True)` via a key function). -/

/-- Insert for descending order: `x` walks past elements with a strictly
larger key and lands before the first element whose key is `≤ f x`.
Since `sortDescBy` inserts earlier elements last, an earlier element ends
up before later elements with an equal key — exactly Python's stable
sort tie behavior. -/
def insertDesc {α : Type} (f : α → ℚ) (x : α) : List α → List α
  | [] => [x]
  | y :: ys => if f x < f y then y :: insertDesc f x ys else x :: y :: ys

/-- Stable sort, descending by key `f`. -/
def sortDescBy {α : Type} (f : α → ℚ) : List α → List α
  | [] => []
  | x :: xs => insertDesc f x (sortDescBy f xs)

theorem mem_insertDesc {α : Type} (f : α → ℚ) (x : α) (l : List α) (b : α) :
    b ∈ insertDesc f x l ↔ b = x ∨ b ∈ l := by
  induction l with
  | nil => simp [insertDesc]
  | cons y ys ih =>
    simp only [insertDesc]
    by_cases hz : f x < f y
    · simp only [if_pos hz, List.mem_cons, ih]; tauto
    · simp only [if_neg hz, List.mem_cons]

theorem sorted_insertDesc {α : Type} (f : α → ℚ) (x : α) (l : List α)
    (h : l.Sorted (fun a b => f b ≤ f a)) :
    (insertDesc f x l).Sorted (fun a b => f b ≤ f a) := by
  induction l with
  | nil => simp [insertDesc]
  | cons y ys ih =>
    simp only [insertDesc]
    rcases List.sorted_cons.mp h with ⟨hy, hys⟩
    by_cases hlt : f x < f y
    · simp only [if_pos hlt]
      refine List.sorted_cons.mpr ⟨?_, ih hys⟩
      intro b hb
      rcases (mem_insertDesc f x ys b).mp hb with rfl | hmem
      · exact le_of_lt hlt
      · exact hy _ hmem
    · simp only [if_neg hlt]
      refine List.sorted_cons.mpr ⟨?_, h⟩
      intro b hb
      rcases List.mem_cons.mp hb with rfl | hb'
      · exact le_of_not_lt hlt
      · exact le_trans (hy _ hb') (le_of_not_lt hlt)

theorem sorted_sortDescBy {α : Type} (f : α → ℚ) (l : List α) :
    (sortDescBy f l).Sorted (fun a b => f b ≤ f a) := by
  induction l with
  | nil => simp [sortDescBy]
  | cons x xs ih => exact sorted_insertDesc f x _ ih

theorem perm_insertDesc {α : Type} (f : α → ℚ) (x : α) (l : List α) :
    (insertDesc f x l).Perm (x :: l) := by
  induction l with
  | nil => simp [insertDesc]
  | cons y ys ih =>
    simp only [insertDesc]
    by_cases hz : f x < f y
    · simp only [if_pos hz]
      exact List.Perm.trans (List.Perm.cons y ih) (List.Perm.swap x y ys)
    · simp [if_neg hz]

theorem perm_sortDescBy {α : Type} (f : α → ℚ) (l : List α) :
    (sortDescBy f l).Perm l := by
  induction l with
  | nil => simp [sortDescBy]
  | cons x xs ih =>
    exact List.Perm.trans (perm_insertDesc f x _) (List.Perm.cons x ih)

theorem mem_sortDescBy {α : Type} (f : α → ℚ) (l : List α) (b : α) :
    b ∈ sortDescBy f l ↔ b ∈ l := (perm_sortDescBy f l).mem_iff


/-! ### A small regular-expression engine

The analyzers in `enhanced_hybrid_search.py`, `dynamic_weighting.py`,
`keyword_search.py` and `search_enhancements.py` detect query features
with Python `re` patterns.  We embed those patterns as data over a
backtracking matcher with Python's semantics: leftmost match, greedy
quantifiers, alternation tried left to right, `\b` word boundaries.
The matcher carries explicit fuel bounding the backtracking depth; the
fuel passed by `reSearch`/`reFindAll` far exceeds the recursion depth
any of the embedded patterns can reach on a given input. -/

/-- Regular expressions: character class, word boundary `\b`, sequence,
alternation, Kleene star, empty. -/
inductive RE : Type where
  | eps : RE
  | cls : (Char → Bool) → RE
  | bnd : RE
  | seq : RE → RE → RE
  | alt : RE → RE → RE
  | star : RE → RE

namespace RE

def opt (r : RE) : RE := .alt r .eps

def plus (r : RE) : RE := .seq r (.star r)

/-- `r{n}` -/
def rep (n : Nat) (r : RE) : RE :=
  match n with
  | 0 => .eps
  | Nat.succ m => .seq r (rep m r)

/-- `r{n,}` -/
def repAtLeast (n : Nat) (r : RE) : RE := .seq (rep n r) (.star r)

/-- `r{m,n}`: `m` mandatory copies then `n - m` greedy optionals. -/
def repRange (m n : Nat) (r : RE) : RE :=
  .seq (rep m r) (rep (n - m) (opt r))

def seqAll : List RE → RE
  | [] => .eps
  | [r] => r
  | r :: rs => .seq r (seqAll rs)

def alts : List RE → RE
  | [] => .cls (fun _ => false)
  | [r] => r
  | r :: rs => .alt r (alts rs)

/-- Literal character, optionally case-insensitive. -/
def chr (ci : Bool) (c : Char) : RE :=
  if ci then .cls (fun d => d.toLower = c.toLower) else .cls (fun d => d = c)

/-- Literal string, optionally case-insensitive. -/
def str (ci : Bool) (s : String) : RE := seqAll (s.toList.map (chr ci))

end RE

/-- Python `\w` (ASCII fragment). -/
def isWordChar (c : Char) : Bool := c.isAlphanum || c = '_'

/-- `\b` holds between `prev` and the next character iff exactly one side
is a word character (ends of string count as non-word). -/
def atBoundary (prev : Option Char) (s : List Char) : Bool :=
  let l := match prev with | none => false | some c => isWordChar c
  let r := match s with | [] => false | c :: _ => isWordChar c
  l != r

/-- Backtracking matcher in continuation-passing style.  `prev` is the
character just before the current position (for `\b`), `k` the
continuation receiving the rest of the input after the candidate match.
Returns the suffix remaining after the first (Python backtracking order)
successful overall match, `none` if there is none or fuel runs out. -/
def mrun : Nat → RE → Option Char → List Char →
    (Option Char → List Char → Option (List Char)) → Option (List Char)
  | 0, _, _, _, _ => none
  | Nat.succ fuel, r, prev, s, k =>
    match r with
    | .eps => k prev s
    | .cls p =>
      match s with
      | [] => none
      | c :: rest => if p c then k (some c) rest else none
    | .bnd => if atBoundary prev s then k prev s else none
    | .seq a b => mrun fuel a prev s (fun p' s' => mrun fuel b p' s' k)
    | .alt a b =>
      match mrun fuel a prev s k with
      | some res => some res
      | none => mrun fuel b prev s k
    | .star r' =>
      match mrun fuel r' prev s
          (fun p' s' =>
            if s'.length < s.length then mrun fuel (.star r') p' s' k
            else none) with
      | some res => some res
      | none => k prev s

/-- Size of a regex, used to provision fuel. -/
def reSize : RE → Nat
  | .eps => 1
  | .cls _ => 1
  | .bnd => 1
  | .seq a b => reSize a + reSize b + 1
  | .alt a b => reSize a + reSize b + 1
  | .star r => reSize r + 2

/-- Fuel that dominates the recursion depth of `mrun` on input `s`:
every step either descends into a strictly smaller regex or (for star
iteration) strictly shortens the input. -/
def reFuel (r : RE) (s : List Char) : Nat :=
  (reSize r + 2) * (s.length + 2) + 8

/-- Length of the first match of `r` at the current position, if any. -/
def matchLenAt (r : RE) (prev : Option Char) (s : List Char) : Option Nat :=
  (mrun (reFuel r s) r prev s (fun _ s' => some s')).map (fun s' => s.length - s'.length)

/-- Python `re.search(r, s) is not None`. -/
def reSearchAux (r : RE) : Option Char → List Char → Bool
  | prev, s =>
    match matchLenAt r prev s with
    | some _ => true
    | none =>
      match s with
      | [] => false
      | c :: rest => reSearchAux r (some c) rest

def reSearch (r : RE) (s : String) : Bool := reSearchAux r none s.toList

/-- Python `re.findall(r, s)` for patterns without capturing groups:
matched substrings, leftmost, non-overlapping; zero-length matches
advance by one character. -/
def reFindAllAux (r : RE) : Nat → Option Char → List Char → List String
  | 0, _, _ => []
  | Nat.succ fuel, prev, s =>
    match matchLenAt r prev s with
    | some n =>
      if n = 0 then
        match s with
        | [] => []
        | c :: rest => reFindAllAux r fuel (some c) rest
      else
        ⟨s.take n⟩ :: reFindAllAux r fuel ((s.take n).getLast?) (s.drop n)
    | none =>
      match s with
      | [] => []
      | c :: rest => reFindAllAux r fuel (some c) rest

def reFindAll (r : RE) (s : String) : List String :=
  reFindAllAux r (s.toList.length + 1) none s.toList

/-! Common character classes. -/

def dig : RE := .cls Char.isDigit
def wsC : RE := .cls pyIsSpace


/-! ### Quoted-phrase extraction

`re.findall` on the quote patterns, written as direct scanners:
`"([^"]*)"` (enhanced_hybrid_search) pairs quotes greedily left to
right; `"([^"]+)"` (dynamic_weighting) additionally skips an opening
quote that is immediately followed by another quote. -/

/-- `re.findall(r'"([^"]*)"', s)` over the character list. -/
def findQuotedAux : Nat → List Char → List String
  | 0, _ => []
  | _, [] => []
  | Nat.succ fuel, '"' :: rest =>
    match rest.dropWhile (· ≠ '"') with
    | _ :: rest2 => ⟨rest.takeWhile (· ≠ '"')⟩ :: findQuotedAux fuel rest2
    | [] => []
  | Nat.succ fuel, _ :: rest => findQuotedAux fuel rest

def findQuoted (l : List Char) : List String := findQuotedAux l.length l

/-- `re.findall` for the quote pattern whose group is `[^\x22]+` over the
character list: an opening quote immediately followed by another quote
matches nothing there, and scanning resumes at the second quote. -/
def findQuotedNEAux : Nat → List Char → List String
  | 0, _ => []
  | _, [] => []
  | Nat.succ fuel, '"' :: '"' :: rest => findQuotedNEAux fuel ('"' :: rest)
  | Nat.succ fuel, '"' :: rest =>
    match rest.dropWhile (· ≠ '"') with
    | _ :: rest2 => ⟨rest.takeWhile (· ≠ '"')⟩ :: findQuotedNEAux fuel rest2
    | [] => []
  | Nat.succ fuel, _ :: rest => findQuotedNEAux fuel rest

def findQuotedNE (l : List Char) : List String := findQuotedNEAux l.length l

/-! ### The source regex patterns as data -/

namespace Pat

/-- Single case-sensitive literal character. -/
def ch (c : Char) : RE := RE.chr false c

/-- `[a-f0-9]` under `re.IGNORECASE`. -/
def hexCI : RE := .cls (fun c => c.isDigit || ('a' ≤ c.toLower && c.toLower ≤ 'f'))

def monthsAbbr : List String :=
  ["Jan", "Feb", "Mar", "Apr", "May", "Jun", "Jul", "Aug", "Sep", "Oct", "Nov", "Dec"]

def monthsFull : List String :=
  ["january", "february", "march", "april", "may", "june", "july", "august",
   "september", "october", "november", "december"]

/-- `\b[a-f0-9]{8}-[a-f0-9]{4}-[a-f0-9]{4}-[a-f0-9]{4}-[a-f0-9]{12}\b`,
`re.IGNORECASE` (both analyzers' UUID pattern). -/
def uuid : RE := RE.seqAll
  [.bnd, RE.rep 8 hexCI, ch '-', RE.rep 4 hexCI, ch '-', RE.rep 4 hexCI,
   ch '-', RE.rep 4 hexCI, ch '-', RE.rep 12 hexCI, .bnd]

/-! `enhanced_hybrid_search.analyze_query`; all searched with `re.IGNORECASE`. -/

/-- The pattern `\b\d{4}X\d{1,2}X\d{1,2}\b` where `X` is the class dash-or-slash. -/
def ehDate1 : RE :=
  let sep : RE := .cls (fun c => c = '-' || c = '/')
  RE.seqAll [.bnd, RE.rep 4 dig, sep, RE.repRange 1 2 dig, sep, RE.repRange 1 2 dig, .bnd]

/-- The pattern `\b\d{1,2}X\d{1,2}X\d{4}\b` where `X` is the class dash-or-slash. -/
def ehDate2 : RE :=
  let sep : RE := .cls (fun c => c = '-' || c = '/')
  RE.seqAll [.bnd, RE.repRange 1 2 dig, sep, RE.repRange 1 2 dig, sep, RE.rep 4 dig, .bnd]

/-- `\b(Jan|...|Dec)[a-z]* \d{1,2},? \d{4}\b` -/
def ehDate3 : RE := RE.seqAll
  [.bnd, RE.alts (monthsAbbr.map (RE.str true)), .star (.cls Char.isAlpha),
   ch ' ', RE.repRange 1 2 dig, RE.opt (ch ','), ch ' ', RE.rep 4 dig, .bnd]

/-- `\b\d{1,2} (Jan|...|Dec)[a-z]* \d{4}\b` -/
def ehDate4 : RE := RE.seqAll
  [.bnd, RE.repRange 1 2 dig, ch ' ', RE.alts (monthsAbbr.map (RE.str true)),
   .star (.cls Char.isAlpha), ch ' ', RE.rep 4 dig, .bnd]

/-- `\b(today|yesterday|tomorrow|last week|this week|next week)\b` -/
def ehDate5 : RE := RE.seqAll
  [.bnd,
   RE.alts (["today", "yesterday", "tomorrow", "last week", "this week",
             "next week"].map (RE.str true)), .bnd]

def ehDatePatterns : List RE := [ehDate1, ehDate2, ehDate3, ehDate4, ehDate5]

/-- `\b[A-Z0-9]{6,}\b` under `re.IGNORECASE`. -/
def ehId2 : RE := RE.seqAll [.bnd, RE.repAtLeast 6 (.cls Char.isAlphanum), .bnd]

/-- `\bID[-:\s]?\w+\b` under `re.IGNORECASE`. -/
def ehId3 : RE := RE.seqAll
  [.bnd, RE.str true "ID",
   RE.opt (.cls (fun c => c = '-' || c = ':' || pyIsSpace c)),
   RE.plus (.cls isWordChar), .bnd]

/-- `#\w+` -/
def hashW : RE := RE.seqAll [ch '#', RE.plus (.cls isWordChar)]

def ehIdPatterns : List RE := [uuid, ehId2, ehId3, hashW]

/-- `\$[\d,]+(?:\.\d{2})?` (also `extract_patterns` and `_tokenize`). -/
def dollarAmt : RE := RE.seqAll
  [ch '$', RE.plus (.cls (fun c => c.isDigit || c = ',')),
   RE.opt (RE.seqAll [ch '.', RE.rep 2 dig])]

/-- `\b\d+%` -/
def ehNum2 : RE := RE.seqAll [.bnd, RE.plus dig, ch '%']

/-- `\b\d+(?:\.\d+)?\s*(gb|mb|kb|tb)\b` under `re.IGNORECASE`. -/
def ehNum3 : RE := RE.seqAll
  [.bnd, RE.plus dig, RE.opt (RE.seqAll [ch '.', RE.plus dig]), .star wsC,
   RE.alts (["gb", "mb", "kb", "tb"].map (RE.str true)), .bnd]

/-- `\b\d{3,}\b` -/
def ehNum4 : RE := RE.seqAll [.bnd, RE.repAtLeast 3 dig, .bnd]

def ehNumberPatterns : List RE := [dollarAmt, ehNum2, ehNum3, ehNum4]

/-! `dynamic_weighting.DynamicWeightCalculator` patterns (compiled;
only the month-name and relative-term date patterns carry `re.I`). -/

/-- `\b[A-Z]{2,}-\d+\b` (case-sensitive). -/
def dwId1 : RE := RE.seqAll
  [.bnd, RE.repAtLeast 2 (.cls Char.isUpper), ch '-', RE.plus dig, .bnd]

/-- `\b\d{6,}\b` -/
def dwId2 : RE := RE.seqAll [.bnd, RE.repAtLeast 6 dig, .bnd]

/-- `\b[A-Z0-9]{8,}\b` (case-sensitive). -/
def dwId3 : RE := RE.seqAll
  [.bnd, RE.repAtLeast 8 (.cls (fun c => c.isUpper || c.isDigit)), .bnd]

/-- `#\d+` -/
def dwId4 : RE := RE.seqAll [ch '#', RE.plus dig]

def dwIdPatterns : List RE := [dwId1, dwId2, dwId3, dwId4]

/-- `\b\d{4}-\d{1,2}-\d{1,2}\b` (case-sensitive). -/
def dwDate1 : RE := RE.seqAll
  [.bnd, RE.rep 4 dig, ch '-', RE.repRange 1 2 dig, ch '-', RE.repRange 1 2 dig, .bnd]

/-- `\b\d{1,2}/\d{1,2}/\d{2,4}\b` (case-sensitive). -/
def dwDate2 : RE := RE.seqAll
  [.bnd, RE.repRange 1 2 dig, ch '/', RE.repRange 1 2 dig, ch '/',
   RE.repRange 2 4 dig, .bnd]

/-- `\b(jan|...|dec)[a-z]* \d{1,2},? \d{4}\b`, `re.I`. -/
def dwDate3 : RE := ehDate3

/-- `\b(january|...|december) \d{1,2},? \d{4}\b`, `re.I`. -/
def dwDate4 : RE := RE.seqAll
  [.bnd, RE.alts (monthsFull.map (RE.str true)), ch ' ', RE.repRange 1 2 dig,
   RE.opt (ch ','), ch ' ', RE.rep 4 dig, .bnd]

/-- `\b(today|yesterday|tomorrow|last week|this week|next week|last month|this month)\b`, `re.I`. -/
def dwDate5 : RE := RE.seqAll
  [.bnd,
   RE.alts (["today", "yesterday", "tomorrow", "last week", "this week",
             "next week", "last month", "this month"].map (RE.str true)), .bnd]

def dwDatePatterns : List RE := [dwDate1, dwDate2, dwDate3, dwDate4, dwDate5]

/-- `\b\d+\b` (both `analyze_query`'s number check and `extract_patterns`). -/
def bareNumber : RE := RE.seqAll [.bnd, RE.plus dig, .bnd]

/-! `search_enhancements.extract_patterns` and `keyword_search._tokenize`. -/

/-- `\d+(?:\.\d+)?%` -/
def percentAmt : RE := RE.seqAll
  [RE.plus dig, RE.opt (RE.seqAll [ch '.', RE.plus dig]), ch '%']

/-- `\d+[-X]\d+\s*(?:month|year|week|day)s?`, case-sensitive.  In the
source file the class between the brackets is the literal byte sequence
of a mojibake-encoded en dash, which Python reads as the three separate
characters `U+00E2`, `U+20AC`, `U+201C`; the class therefore matches a
hyphen or any one of those three characters, not the en dash itself. -/
def timePeriod : RE := RE.seqAll
  [RE.plus dig,
   .cls (fun c => c = '-' || c = 'â' || c = '€' || c = '“'),
   RE.plus dig, .star wsC,
   RE.alts (["month", "year", "week", "day"].map (RE.str false)), RE.opt (ch 's')]

/-- The same pattern as used by `_tokenize`, with `re.IGNORECASE`. -/
def timePeriodCI : RE := RE.seqAll
  [RE.plus dig, .cls (fun c => c = '-' || c = '–'), RE.plus dig, .star wsC,
   RE.alts (["month", "year", "week", "day"].map (RE.str true)), RE.opt (ch 's')]

/-- `\b[A-Z]+-\d+\b` under `re.IGNORECASE` (`_tokenize` id pattern). -/
def tokId : RE := RE.seqAll
  [.bnd, RE.plus (.cls Char.isAlpha), ch '-', RE.plus dig, .bnd]

end Pat

/-! ### `search_enhancements.py` -/

/-- `STOP_WORDS` from `search_enhancements.py`. -/
def STOP_WORDS : List String :=
  ["the", "is", "at", "which", "on", "a", "an", "as", "are", "was", "were",
   "been", "be", "have", "has", "had", "do", "does", "did", "will", "would",
   "could", "should", "may", "might", "must", "shall", "can", "need", "my",
   "what", "how", "when", "where", "who", "why", "list", "give", "tell", "show"]

/-- `SYNONYMS` from `search_enhancements.py`, in source (= dict insertion)
order. -/
def SYNONYMS : List (String × List String) :=
  [("objective", ["goal", "target", "aim", "purpose"]),
   ("objectives", ["goals", "targets", "aims", "purposes"]),
   ("month", ["monthly", "months"]),
   ("payment", ["amount", "cost", "fee"]),
   ("tool", ["technology", "framework", "library", "stack", "software"]),
   ("tools", ["technologies", "frameworks", "libraries", "stack", "software"]),
   ("phase", ["stage", "step", "period"]),
   ("student loan", ["loan", "debt", "student debt"]),
   ("ai", ["artificial intelligence", "ml", "machine learning", "cognitive"]),
   ("frontier", ["cutting-edge", "advanced", "leading-edge"]),
   ("cognitive", ["ai", "artificial intelligence", "intelligent"]),
   ("education", ["educational", "learning", "teaching", "student", "curriculum"]),
   ("educational", ["education", "learning", "academic"]),
   ("security", ["secure", "protection", "safety", "access control", "privacy"]),
   ("important", ["critical", "essential", "key", "crucial", "vital"]),
   ("critical", ["important", "essential", "key", "crucial", "vital"]),
   ("enterprise", ["business", "organization", "corporate", "company"]),
   ("adoption", ["implementation", "deployment", "integration", "use"]),
   ("enhances", ["improves", "augments", "boosts", "strengthens"]),
   ("interaction", ["engagement", "communication", "interface"]),
   ("continuous", ["ongoing", "persistent", "constant", "adaptive"]),
   ("learning", ["training", "education", "knowledge", "understanding"]),
   ("enable", ["allow", "facilitate", "support", "provide"]),
   ("enables", ["allows", "facilitates", "supports", "provides"]),
   ("helps", ["assists", "aids", "supports", "facilitates"]),
   ("help", ["assist", "aid", "support", "facilitate"])]

/-- `extract_key_terms`. -/
def extract_key_terms (query : String) : String :=
  let words := pySplit (pyLower query)
  let key_words := words.filter (fun w => !STOP_WORDS.contains w && w.length > 2)
  if key_words ≠ [] then pyJoin key_words else query

/-- `extract_patterns`: dollar amounts, percentages, time periods, numbers. -/
def extract_patterns (query : String) : List String :=
  reFindAll Pat.dollarAmt query ++ reFindAll Pat.percentAmt query ++
    reFindAll Pat.timePeriod query ++ reFindAll Pat.bareNumber query

/-- `expand_with_synonyms`. -/
def expand_with_synonyms (query : String) : List String :=
  let ql := pyLower query
  SYNONYMS.foldl
    (fun acc p =>
      if pyIn p.1 ql then acc ++ p.2.map (fun syn => pyReplace ql p.1 syn) else acc)
    [query]

/-- The list of question words stripped out to build `core` in
`enhanced_search` strategy 2. -/
def QUESTION_WORDS : List String :=
  ["what", "how", "when", "where", "why", "which", "does", "do", "is",
   "are", "the", "should", "can", "will"]

/-- `rewrite_question`.  `pyset` models `list(set(...))`: CPython string
hashing is randomized, so the resulting order is an external input. -/
def rewrite_question (pyset : List String → List String) (query : String) :
    List String :=
  let ql := pyLower query
  let r := [query]
  let r := if pyStartsWith ql "what" then
      let core := pyStrip (pyReplace (pyReplace (pyReplace query "?" "") "What is" "") "What are" "")
      r ++ [core ++ " is", core ++ " are", core]
    else r
  let r := if pyStartsWith ql "how" then
      let core := pyStrip (pyReplace (pyReplace (pyReplace (pyReplace query "?" "") "How does" "") "How do" "") "How should" "")
      r ++ [core, core ++ " by", core ++ " through", core ++ " using"]
    else r
  let r := if pyStartsWith ql "which" then
      let core := pyStrip (pyReplace (pyReplace (pyReplace query "?" "") "Which" "") "are mentioned" "")
      r ++ [core ++ " include", core ++ " such as", core]
    else r
  let r := if pyIn "three generations" ql then
      r ++ ["first generation second generation third generation",
            "evolution from chatbots cognitive companions",
            "rule based pattern cognitive"]
    else r
  let r := if pyIn "api key" ql then
      r ++ ["API Key Management never expose",
            "never exposing API keys",
            "environment variables secure vaults"]
    else r
  let r := if pyIn "hybrid search" ql then
      r ++ ["combining semantic keyword", "semantic search keyword matching"]
    else r
  let r := if pyIn "circular architecture" ql then
      r ++ ["User Input Embedding Vector Search", "architecture overview"]
    else r
  let r := if pyIn "help" ql || pyIn "helps" ql then
      r ++ [pyReplace query "helps" "enhances", pyReplace query "help" "enhance",
            pyReplace query "helps with" "for"]
    else r
  let r := if pyIn "important for" ql then
      r ++ [pyReplace query "important for" "requires",
            pyReplace query "important for" "needs",
            pyReplace query "What is important for" ""]
    else r
  let r := if pyIn "critical for" ql then
      r ++ [pyReplace query "critical for" "requires",
            pyReplace query "critical for" "essential for",
            pyReplace query "What is critical for" ""]
    else r
  let r := if pyIn "does" ql && pyIn "enable" ql then
      r ++ [pyReplace (pyReplace query "What does" "") "?" "",
            pyReplace query "enable" "allow", pyReplace query "enable" "provide"]
    else r
  pyset r

/-- `score_result`. -/
def score_result (text : String) (query : String) : ℚ :=
  if text = "" then 0 else
  let tl := pyLower text
  let ql := pyLower query
  let s1 : ℚ := if pyIn ql tl then 10 else 0
  let s2 : ℚ := 2 * ((pySplit ql).countP (fun w => w.length > 2 && pyIn w tl) : ℚ)
  let s3 : ℚ := 3 * ((pySplit (pyLower (extract_key_terms query))).countP (fun t => pyIn t tl) : ℚ)
  let s4 : ℚ := if text.length > 100 then 1 else 0
  s1 + s2 + s3 + s4

/-- One step of `deduplicate_results`' scan: `seen_ids` plus the
accumulated `unique_results` (with the ranking score attached). -/
def dedupStep (query : String) (st : List String × List (String × String × Meta × ℚ))
    (c : Cand) : List String × List (String × String × Meta × ℚ) :=
  if st.1.contains c.1 then st
  else
    (c.1 :: st.1,
     st.2 ++ [(c.1, c.2.1, c.2.2, if query ≠ "" then score_result c.2.1 query else 0)])

/-- `deduplicate_results`. -/
def deduplicate_results (results_list : List (List Cand)) (k : ℕ) (query : String) :
    List Cand :=
  let fin := results_list.foldl (fun st results => results.foldl (dedupStep query) st) ([], [])
  let uniq := if query ≠ "" then sortDescBy (fun r => r.2.2.2) fin.2 else fin.2
  (uniq.take k).map (fun r => (r.1, r.2.1, r.2.2.1))

/-- `normalize_scores`: min-max normalization to the unit interval,
`0.5` everywhere when all scores coincide. -/
def normalize_scores (scores : List ℚ) : List ℚ :=
  match scores with
  | [] => []
  | s :: rest =>
    let min_score := rest.foldl min s
    let max_score := rest.foldl max s
    if max_score = min_score then scores.map (fun _ => (1 : ℚ) / 2)
    else scores.map (fun x => (x - min_score) / (max_score - min_score))

/-- The inner loop of `reciprocal_rank_fusion`:
`for rank, (doc_id, _) in enumerate(results, 1): rrf_scores[doc_id] += 1/(k+rank)`. -/
def rrfLoop (k : ℕ) : ℕ → List (String × ℚ) → List (String × ℚ) → List (String × ℚ)
  | _, acc, [] => acc
  | rank, acc, (doc_id, _) :: rest =>
    rrfLoop k (rank + 1) (bump acc doc_id (1 / ((k : ℚ) + rank))) rest

/-- `reciprocal_rank_fusion` from `search_enhancements.py` (the call sites
use the default `k = 60`). -/
def reciprocal_rank_fusion (k : ℕ) (results_lists : List (List (String × ℚ))) :
    List (String × ℚ) :=
  results_lists.foldl (fun acc results => rrfLoop k 1 acc results) []

/-- The keyword index as seen by `search_enhancements.py` /
`enhanced_hybrid_search.py`: the `enabled` flag plus the `search` method.
`search` returning `none` models a raised exception. -/
structure KWIdxO : Type where
  enabled : Bool
  searchQ : String → ℕ → Option (List KwHit)

/-- The `vec_memory.search` collaborator; `none` models a raised
exception. -/
abbrev BasicO := String → ℕ → Option (List Cand)

/-- State threaded through `enhanced_search`: the `all_results` list and
the number of backend calls issued so far. -/
abbrev ESSt := List (List Cand) × ℕ

/-- A backend call wrapped in `try: ... except Exception: pass`: the call
is counted, its result appended only on success. -/
def tryCall (st : ESSt) (res : Option (List Cand)) : ESSt :=
  match res with
  | some r => (st.1 ++ [r], st.2 + 1)
  | none => (st.1, st.2 + 1)

/-- `enhanced_search`: the multi-strategy recall search.  Returns the
deduplicated top-`k` hits together with the number of backend calls
(vector or keyword) issued. -/
def enhanced_search (basic : BasicO) (kwIdx : KWIdxO)
    (pyset : List String → List String) (query : String) (k : ℕ) :
    List Cand × ℕ :=
  if query = "" || pyStrip query = "" then ([], 0) else
  let ql := pyLower query
  -- Strategy 1: original query
  let st := tryCall ([], 0) (basic query (k * 4))
  -- Strategy 2: aggressive query rewriting
  let rewrites := rewrite_question pyset query
  let core := pyJoin (pySplit (QUESTION_WORDS.foldl (fun c w => pyReplace c w " ") ql))
  let rewrites := if core ≠ "" && !rewrites.contains core then rewrites ++ [core] else rewrites
  let st := (rewrites.take 3).foldl
    (fun st rw => if rw ≠ query then tryCall st (basic rw k) else st) st
  -- Strategy 3: key terms and important words
  let key_terms := extract_key_terms query
  let st := if key_terms ≠ query then tryCall st (basic key_terms (k * 2)) else st
  let important_words := (pySplit ql).filter (fun w => w.length > 3 && !STOP_WORDS.contains w)
  let st := (important_words.take 3).foldl (fun st w => tryCall st (basic w 3)) st
  -- Strategy 4: extracted patterns
  let st := (extract_patterns query).foldl (fun st p => tryCall st (basic p 3)) st
  -- Strategy 5: synonym variations
  let st := (((expand_with_synonyms query).drop 1).take 2).foldl
    (fun st v => tryCall st (basic v 3)) st
  -- Strategy 6: domain-specific expansions (two calls share one `try`)
  let st := if ["database", "tool", "technology", "system", "model"].any (fun w => pyIn w ql) then
      match basic (core ++ " offers provides includes") 3 with
      | none => (st.1, st.2 + 1)
      | some r1 =>
        match basic (core ++ " such as like including") 3 with
        | none => (st.1 ++ [r1], st.2 + 2)
        | some r2 => (st.1 ++ [r1, r2], st.2 + 2)
    else st
  let st := if ["how", "should", "manage", "handle", "process"].any (fun w => pyIn w ql) then
      tryCall st (basic (core ++ " requires never always should must") 3)
    else st
  let st := if ["benefit", "help", "transform", "enable", "improve"].any (fun w => pyIn w ql) then
      tryCall st (basic (core ++ " enables allows provides helps") 3)
    else st
  let st := if ["what is", "what are", "define"].any (fun w => pyIn w ql) then
      let stripped := pyStrip (pyReplace (pyReplace (pyReplace ql "what is" "") "what are" "") "?" "")
      tryCall st (basic (stripped ++ " is are represents") 3)
    else st
  -- Strategy 7: keyword search
  let st := if kwIdx.enabled then
      let st := match kwIdx.searchQ query (k * 2) with
        | some kw => (st.1 ++ [kw.map (fun h => (h.1, h.2.2, ([] : Meta)))], st.2 + 1)
        | none => (st.1, st.2 + 1)
      if core ≠ "" && core ≠ query then
        match kwIdx.searchQ core k with
        | some kw => (st.1 ++ [kw.map (fun h => (h.1, h.2.2, ([] : Meta)))], st.2 + 1)
        | none => (st.1, st.2 + 1)
      else st
    else st
  (deduplicate_results st.1 k query, st.2)

/-- `hybrid_search`.  The result is `Except`-valued because the keyword
call at its top level is not wrapped in `try`: an exception there
propagates to the caller (`.error`).  The second component counts all
backend calls issued. -/
def hybrid_search (basic : BasicO) (kwIdx : KWIdxO)
    (pyset : List String → List String) (query : String) (k : ℕ) (alpha : ℚ)
    (use_rrf : Bool) :
    Except Unit (List (String × String × Meta × ℚ)) × ℕ :=
  if query = "" || pyStrip query = "" then (.ok [], 0) else
  let (vector_results, n1) := enhanced_search basic kwIdx pyset query (k * 2)
  match kwIdx.searchQ query (k * 2) with
  | none => (.error (), n1 + 1)
  | some keyword_results =>
    let n := n1 + 1
    if use_rrf then
      -- Reciprocal Rank Fusion path
      let vector_list := vector_results.map (fun r => (r.1, (1 : ℚ)))
      let keyword_list := keyword_results.map (fun r => (r.1, r.2.1))
      let rrf_scores := reciprocal_rank_fusion 60 [vector_list, keyword_list]
      let combined : List (String × String × Meta × ℚ) :=
        vector_results.foldl
          (fun c r =>
            if hasKey rrf_scores r.1 then
              setA c r.1 (r.2.1, r.2.2, lookupD rrf_scores r.1 0)
            else c)
          []
      let combined :=
        keyword_results.foldl
          (fun c r =>
            if !hasKey c r.1 && hasKey rrf_scores r.1 then
              setA c r.1 (r.2.2, ([] : Meta), lookupD rrf_scores r.1 0)
            else c)
          combined
      let sorted_results := sortDescBy (fun x => x.2.2.2) combined
      (.ok ((sorted_results.take k).map (fun x => (x.1, x.2.1, x.2.2.1, x.2.2.2))), n)
    else
      -- weighted score combination path
      let doc_data : List (String × String × Meta) :=
        vector_results.foldl (fun d r => setA d r.1 (r.2.1, r.2.2)) []
      let combined_scores : List (String × ℚ) :=
        if vector_results ≠ [] then
          let normalized_vector := normalize_scores (vector_results.map (fun _ => (1 : ℚ)))
          (vector_results.zip normalized_vector).foldl
            (fun cs p => setA cs p.1.1 (alpha * p.2)) []
        else []
      let (combined_scores, doc_data) :=
        if keyword_results ≠ [] then
          let normalized_keyword := normalize_scores (keyword_results.map (fun r => r.2.1))
          (keyword_results.zip normalized_keyword).foldl
            (fun st p =>
              if hasKey st.1 p.1.1 then
                (setA st.1 p.1.1 (lookupD st.1 p.1.1 0 + (1 - alpha) * p.2), st.2)
              else
                (setA st.1 p.1.1 ((1 - alpha) * p.2), setA st.2 p.1.1 (p.1.2.2, ([] : Meta))))
            (combined_scores, doc_data)
        else (combined_scores, doc_data)
      let sorted_ids := sortDescBy (fun x => x.2) combined_scores
      let results := (sorted_ids.take k).map
        (fun p =>
          let d := lookupD doc_data p.1 ("", [])
          (p.1, d.1, d.2, p.2))
      (.ok results, n)

/-! ### `enhanced_hybrid_search.py` (`DynamicHybridSearch`) -/

/-- `QueryCharacteristics` of `enhanced_hybrid_search.py` (after
`__post_init__` has replaced `None` by `[]`). -/
structure QueryChars : Type where
  has_quotes : Bool
  has_dates : Bool
  has_ids : Bool
  has_numbers : Bool
  exact_phrases : List String
  query_type : String
deriving DecidableEq

/-- `DynamicHybridSearch.analyze_query`.  The interim
`chars.query_type = "exact"` assignment inside the quote branch is
subsumed by the final classification block, which this definition
mirrors. -/
def analyze_query (query : String) : QueryChars :=
  let quoted_matches := findQuoted query.toList
  let has_quotes := quoted_matches ≠ []
  let exact_phrases := if quoted_matches ≠ [] then quoted_matches else []
  let has_dates := Pat.ehDatePatterns.any (fun p => reSearch p query)
  let has_ids := Pat.ehIdPatterns.any (fun p => reSearch p query)
  let has_numbers := Pat.ehNumberPatterns.any (fun p => reSearch p query)
  let query_type :=
    if has_quotes || has_ids then "exact"
    else if has_dates || has_numbers then "hybrid"
    else "semantic"
  ⟨has_quotes, has_dates, has_ids, has_numbers, exact_phrases, query_type⟩

/-- `DynamicHybridSearch.calculate_dynamic_weights`. -/
def calculate_dynamic_weights (c : QueryChars) : ℚ × ℚ :=
  if c.query_type = "exact" then (2/10, 8/10)
  else if c.query_type = "hybrid" then (5/10, 5/10)
  else (8/10, 2/10)

/-- The accumulation loop of `DynamicHybridSearch.reciprocal_rank_fusion`
(a `defaultdict(float)` bumped by `1/(k+rank)`; every result is a tuple,
whose first component is the document id). -/
def dynRRFLoop (k : ℕ) : ℕ → List (String × ℚ) → List Cand → List (String × ℚ)
  | _, acc, [] => acc
  | rank, acc, r :: rest =>
    dynRRFLoop k (rank + 1) (bump acc r.1 (1 / ((k : ℚ) + rank))) rest

/-- The raw (pre-normalization) RRF scores of
`DynamicHybridSearch.reciprocal_rank_fusion`. -/
def dynRRFRaw (k : ℕ) (result_lists : List (List Cand)) : List (String × ℚ) :=
  result_lists.foldl (fun acc results => dynRRFLoop k 1 acc results) []

/-- The normalization block of
`DynamicHybridSearch.reciprocal_rank_fusion`: min-max to the unit
interval, `0.5` everywhere when all values coincide. -/
def normalizeScoresA (m : List (String × ℚ)) : List (String × ℚ) :=
  match m with
  | [] => []
  | p :: rest =>
    let max_score := (rest.map Prod.snd).foldl max p.2
    let min_score := (rest.map Prod.snd).foldl min p.2
    if min_score < max_score then
      m.map (fun q => (q.1, (q.2 - min_score) / (max_score - min_score)))
    else
      m.map (fun q => (q.1, (1 : ℚ) / 2))

/-- `DynamicHybridSearch.reciprocal_rank_fusion` (the `search` call site
uses `k = 60`, `normalize=True`; an empty score dict skips
normalization). -/
def dynRRF (k : ℕ) (normalize : Bool) (result_lists : List (List Cand)) :
    List (String × ℚ) :=
  let rrf_scores := dynRRFRaw k result_lists
  if normalize && rrf_scores ≠ [] then normalizeScoresA rrf_scores else rrf_scores

/-- Step 3 of `DynamicHybridSearch.search`: the collected `result_lists`
and the `doc_content` payload dict.  The backends are external
collaborators (spec §6) modelled as total functions; the calls in this
method are not exception-guarded. -/
def dynGather (basic : String → ℕ → List Cand) (kwS : String → ℕ → List KwHit)
    (kwEnabled : Bool) (chars : QueryChars) (vector_weight keyword_weight : ℚ)
    (query : String) (k : ℕ) :
    List (List Cand) × List (String × String × Meta) :=
  let st :=
    if 0 < vector_weight then
      let vector_results := basic query (k * 3)
      ([vector_results],
       vector_results.foldl (fun d r => setA d r.1 (r.2.1, r.2.2)) [])
    else ([], [])
  if 0 < keyword_weight && kwEnabled then
    if chars.exact_phrases ≠ [] then
      chars.exact_phrases.foldl
        (fun st phrase =>
          let keyword_results := kwS phrase (k * 2)
          (st.1 ++ [keyword_results.map (fun h => (h.1, h.2.2, ([] : Meta)))],
           keyword_results.foldl
             (fun d h => if hasKey d h.1 then d else setA d h.1 (h.2.2, [])) st.2))
        st
    else
      let keyword_results := kwS query (k * 3)
      (st.1 ++ [keyword_results.map (fun h => (h.1, h.2.2, ([] : Meta)))],
       keyword_results.foldl
         (fun d h => if hasKey d h.1 then d else setA d h.1 (h.2.2, [])) st.2)
  else st

/-- Whether step 5 of `DynamicHybridSearch.search` sees `doc_id` in the
vector list (`result_lists[0]`, guarded by `len(result_lists) > 0`). -/
def foundInVector (result_lists : List (List Cand)) (doc_id : String) : Bool :=
  match result_lists with
  | [] => false
  | l0 :: _ => l0.any (fun r => doc_id = r.1)

/-- Whether step 5 sees `doc_id` in any keyword list (`result_lists[1:]`,
guarded by `len(result_lists) > 1`). -/
def foundInKeyword (result_lists : List (List Cand)) (doc_id : String) : Bool :=
  if result_lists.length > 1 then
    (result_lists.drop 1).any (fun results => results.any (fun r => doc_id = r.1))
  else false

/-- Step 5 of `DynamicHybridSearch.search`: scale each RRF score by the
weight of the search family that found it; cross-family hits keep the
unscaled score. -/
def dynWeighted (result_lists : List (List Cand)) (rrf_scores : List (String × ℚ))
    (vector_weight keyword_weight : ℚ) : List (String × ℚ) :=
  rrf_scores.foldl
    (fun ws p =>
      setA ws p.1
        (if foundInVector result_lists p.1 && foundInKeyword result_lists p.1 then p.2
         else if foundInVector result_lists p.1 then p.2 * vector_weight
         else p.2 * keyword_weight))
    []

/-- Step 6 of `DynamicHybridSearch.search`: attach payloads from
`doc_content` and sort descending by the weighted score. -/
def dynCandidates (weighted_scores : List (String × ℚ))
    (doc_content : List (String × String × Meta)) :
    List (String × String × Meta × ℚ) :=
  sortDescBy (fun c => c.2.2.2)
    (weighted_scores.foldl
      (fun cand p =>
        match lookupA doc_content p.1 with
        | some tm => cand ++ [(p.1, tm.1, tm.2, p.2)]
        | none => cand)
      [])

/-- Steps 1–6 of `DynamicHybridSearch.search`: the fused, weighted,
sorted candidate list (before the optional cross-encoder stage). -/
def dynSearchFused (basic : String → ℕ → List Cand) (kwS : String → ℕ → List KwHit)
    (kwEnabled : Bool) (query : String) (k : ℕ) :
    List (String × String × Meta × ℚ) :=
  let characteristics := analyze_query query
  let w := calculate_dynamic_weights characteristics
  let st := dynGather basic kwS kwEnabled characteristics w.1 w.2 query k
  let rrf_scores := dynRRF 60 true st.1
  let weighted_scores := dynWeighted st.1 rrf_scores w.1 w.2
  dynCandidates weighted_scores st.2

/-- `DynamicHybridSearch.search` when the cross-encoder model is absent
(`self.cross_encoder is None`): `final_results = candidates[:k]`. -/
def dynSearchNoCE (basic : String → ℕ → List Cand) (kwS : String → ℕ → List KwHit)
    (kwEnabled : Bool) (query : String) (k : ℕ) :
    List (String × String × Meta × ℚ) :=
  (dynSearchFused basic kwS kwEnabled query k).take k

/-! ### `dynamic_weighting.py` (`DynamicWeightCalculator`) -/

/-- The fields of `dynamic_weighting.QueryCharacteristics` consumed by
`calculate_weights` (the `detected_ids`/`detected_dates` lists feed only
the advisory `get_query_strategy` output). -/
structure DWChars : Type where
  has_quotes : Bool
  has_ids : Bool
  has_dates : Bool
  has_numbers : Bool
  quoted_phrases : List String
  query_type : String
deriving DecidableEq

/-- `DynamicWeightCalculator.analyze_query`. -/
def dwAnalyzeQuery (query : String) : DWChars :=
  let quoted_matches := findQuotedNE query.toList
  let has_quotes := quoted_matches ≠ []
  let has_ids := reSearch Pat.uuid query ||
    Pat.dwIdPatterns.any (fun p => reFindAll p query ≠ [])
  let has_dates := Pat.dwDatePatterns.any (fun p => reFindAll p query ≠ [])
  let has_numbers := reSearch Pat.bareNumber query
  let query_type :=
    if has_quotes || has_ids then "exact"
    else if has_ids && !has_quotes then "navigational"
    else if has_dates then "temporal"
    else "general"
  ⟨has_quotes, has_ids, has_dates, has_numbers,
   if quoted_matches ≠ [] then quoted_matches else [], query_type⟩

/-- `self.default_weights[query_type]` as `(vector, keyword)`. -/
def dwDefaultWeights (query_type : String) : ℚ × ℚ :=
  if query_type = "general" then (7/10, 3/10)
  else if query_type = "exact" then (3/10, 7/10)
  else if query_type = "navigational" then (2/10, 8/10)
  else (5/10, 5/10)

/-- `DynamicWeightCalculator._calculate_adjustments`, as the pair
`(vector_mult, keyword_mult)`. -/
def dwAdjustments (c : DWChars) : ℚ × ℚ :=
  let a : ℚ × ℚ := (1, 1)
  let a := if c.has_quotes then (a.1 * (5/10), a.2 * 2) else a
  let a := if c.has_ids then (a.1 * (7/10), a.2 * (15/10)) else a
  let a := if c.has_dates then (a.1 * (11/10), a.2 * (12/10)) else a
  a

/-- `DynamicWeightCalculator.calculate_weights`. -/
def calculate_weights (query : String) (force_exact : Bool) : ℚ × ℚ :=
  let chars := dwAnalyzeQuery query
  if force_exact then (1/10, 9/10) else
  let weights := dwDefaultWeights chars.query_type
  let adjustments := dwAdjustments chars
  let vector_weight := weights.1 * adjustments.1
  let keyword_weight := weights.2 * adjustments.2
  let total := vector_weight + keyword_weight
  if 0 < total then (vector_weight / total, keyword_weight / total)
  else (1/2, 1/2)

/-! ### `keyword_search.py` (`KeywordSearchIndex`) -/

/-- `KeywordSearchIndex._tokenize`.  `nltkTok` models NLTK's
`word_tokenize` when it is installed and succeeds; `none` selects the
source's fallback `text_lower.split()`. -/
def tokenize (nltkTok : Option (String → List String)) (stop_words : List String)
    (text : String) : List String :=
  if text = "" then [] else
  let text_lower := pyLower text
  let special_tokens :=
    reFindAll Pat.dollarAmt text ++ reFindAll Pat.percentAmt text ++
      reFindAll Pat.tokId text ++ reFindAll Pat.timePeriodCI text
  let tokens :=
    match nltkTok with
    | some f => f text_lower
    | none => pySplit text_lower
  let filtered_tokens := tokens.filter
    (fun t =>
      let digits := pyReplace (pyReplace t "." "") "," ""
      !stop_words.contains t ||
        (digits ≠ "" && digits.toList.all Char.isDigit) ||
        pyIn "$" t || pyIn "%" t || pyIn "-" t)
  filtered_tokens ++ special_tokens.map pyLower

/-- The in-memory state of a `KeywordSearchIndex`: parallel id/content
lists, the optional BM25 scorer (`None` when `rank_bm25` is missing or
no documents are indexed; when present it is the external library's
`get_scores`, one score per indexed document), the stop-word set and
the optional NLTK tokenizer. -/
structure KWIndexState : Type where
  enabled : Bool
  bm25 : Option (List String → List ℚ)
  doc_ids : List String
  doc_contents : List String
  stop_words : List String
  nltkTok : Option (String → List String)

/-- `KeywordSearchIndex.search`. -/
def kwIndexSearch (st : KWIndexState) (query : String) (k : ℕ) : List KwHit :=
  if !st.enabled || st.bm25.isNone || query = "" then [] else
  let query_tokens := tokenize st.nltkTok st.stop_words query
  if query_tokens = [] then [] else
  let scores :=
    match st.bm25 with
    | some f => f query_tokens
    | none => []
  let top_indices := (sortDescBy (fun i => scores.getD i 0) (List.range scores.length)).take k
  top_indices.foldl
    (fun results idx =>
      if 0 < scores.getD idx 0 then
        results ++ [(st.doc_ids.getD idx "", scores.getD idx 0, st.doc_contents.getD idx "")]
      else results)
    []

/-! ### The two caches (`production_search.LRUCache`,
`cached_advanced_search.LLMCache`) -/

/-- Remove the (unique) entry for `key` (`del self.cache[key]`). -/
def eraseKey {α : Type} (c : List (String × α)) (key : String) : List (String × α) :=
  c.filter (fun p => p.1 ≠ key)

/-- `production_search.LRUCache`: an `OrderedDict` from key to
`{'value','timestamp'}` (front = least recently used) plus the
configuration.  The clock is passed explicitly. -/
structure LRUCacheSt (α : Type) : Type where
  max_size : ℕ
  ttl : ℚ
  cache : List (String × α × ℚ)

/-- `LRUCache.get`: a hit only while `now - timestamp < ttl` (the hit is
moved to the most-recently-used end); an expired entry is deleted and
reported as a miss. -/
def lruGet {α : Type} (st : LRUCacheSt α) (now : ℚ) (key : String) :
    Option α × LRUCacheSt α :=
  match lookupA st.cache key with
  | none => (none, st)
  | some entry =>
    if now - entry.2 < st.ttl then
      (some entry.1, ⟨st.max_size, st.ttl, eraseKey st.cache key ++ [(key, entry)]⟩)
    else
      (none, ⟨st.max_size, st.ttl, eraseKey st.cache key⟩)

/-- `LRUCache.set`: evict the least-recently-used entry at capacity,
then write the entry at the most-recently-used end.  (The trailing
`_save_cache` disk write is I/O outside the state.) -/
def lruSet {α : Type} (st : LRUCacheSt α) (now : ℚ) (key : String) (v : α) :
    LRUCacheSt α :=
  let c := if st.max_size ≤ st.cache.length then st.cache.drop 1 else st.cache
  ⟨st.max_size, st.ttl, eraseKey c key ++ [(key, v, now)]⟩

/-- `cached_advanced_search.LLMCache`: a plain dict from the MD5 of the
prompt to `{'response','timestamp'}`.  `hashFn` models
`hashlib.md5(...).hexdigest()`. -/
structure LLMCacheSt : Type where
  ttl : ℚ
  cache : List (String × String × ℚ)

/-- `LLMCache.get`: a hit only while `now - timestamp < ttl`; the method
never mutates the dict, so the state comes back unchanged — in
particular an expired entry stays in the cache. -/
def llmGet (hashFn : String → String) (st : LLMCacheSt) (now : ℚ)
    (prompt : String) : Option String × LLMCacheSt :=
  let key := hashFn prompt
  match lookupA st.cache key with
  | some entry => if now - entry.2 < st.ttl then (some entry.1, st) else (none, st)
  | none => (none, st)

/-- `LLMCache.set`. -/
def llmSet (hashFn : String → String) (st : LLMCacheSt) (now : ℚ)
    (prompt response : String) : LLMCacheSt :=
  ⟨st.ttl, setA st.cache (hashFn prompt) (response, now)⟩

/-! ### Association-list and RRF lemmas -/

theorem lookupA_setA {α : Type} (m : List (String × α)) (k : String) (v : α)
    (k' : String) :
    lookupA (setA m k v) k' = if k = k' then some v else lookupA m k' := by
  induction m with
  | nil => by_cases h : k = k' <;> simp [setA, h]
  | cons hd tl ih =>
    obtain ⟨a, x⟩ := hd
    by_cases hak : a = k
    · subst hak
      by_cases hk' : a = k' <;> simp [setA, hk']
    · by_cases hk' : a = k'
      · subst hk'
        have hkk : ¬ k = a := fun h => hak h.symm
        simp [setA, hak, hkk]
      · simp [setA, hak, hk', ih]

theorem hasKey_setA {α : Type} (m : List (String × α)) (k : String) (v : α)
    (k' : String) :
    hasKey (setA m k v) k' = (hasKey m k' || k = k') := by
  simp only [hasKey, lookupA_setA]
  by_cases h : k = k' <;> simp [h]

theorem mem_setA {α : Type} (m : List (String × α)) (k : String) (v : α)
    (e : String × α) (h : e ∈ setA m k v) : e = (k, v) ∨ e ∈ m := by
  induction m with
  | nil => simpa [setA] using h
  | cons hd tl ih =>
    obtain ⟨a, x⟩ := hd
    by_cases hak : a = k
    · subst hak
      simp [setA] at h
      rcases h with h | h
      · left; simp [h]
      · right; simp [h]
    · simp [setA, hak] at h
      rcases h with h | h
      · right; simp [h]
      · rcases ih h with h' | h'
        · left; exact h'
        · right; simp [h']

theorem setA_fresh {α : Type} (m : List (String × α)) (k : String) (v : α)
    (h : hasKey m k = false) : setA m k v = m ++ [(k, v)] := by
  induction m with
  | nil => simp [setA]
  | cons hd tl ih =>
    obtain ⟨a, x⟩ := hd
    by_cases hak : a = k
    · exfalso
      simp [hasKey, lookupA, hak] at h
    · simp [setA, hak]
      exact ih (by simpa [hasKey, lookupA, hak] using h)

theorem mem_keysA_of_hasKey {α : Type} (m : List (String × α)) (k : String)
    (h : hasKey m k = true) : k ∈ keysA m := by
  induction m with
  | nil => simp [hasKey, lookupA] at h
  | cons hd tl ih =>
    obtain ⟨a, x⟩ := hd
    by_cases hak : a = k
    · simp [keysA, hak]
    · simp [hasKey, lookupA, hak] at h
      simp [keysA]
      right
      have := ih (by simpa [hasKey] using h)
      simpa [keysA] using this

theorem lookupA_not_hasKey {α : Type} (m : List (String × α)) (k : String)
    (h : hasKey m k = false) : lookupA m k = none := by
  simp only [hasKey, Option.isSome] at h
  revert h
  cases lookupA m k <;> simp

theorem lookupA_of_mem_nodup {α : Type} (m : List (String × α)) (k : String)
    (v : α) (hnd : (keysA m).Nodup) (h : (k, v) ∈ m) : lookupA m k = some v := by
  induction m with
  | nil => simp at h
  | cons hd tl ih =>
    obtain ⟨a, x⟩ := hd
    rw [keysA, List.map_cons, List.nodup_cons] at hnd
    rcases List.mem_cons.mp h with h1 | h1
    · rw [← h1]
      simp [lookupA]
    · by_cases hak : a = k
      · exfalso
        subst hak
        exact hnd.1 (List.mem_map.mpr ⟨(a, v), h1, rfl⟩)
      · simpa [lookupA, hak] using ih hnd.2 h1

theorem lookupA_eq_ite_hasKey (m : List (String × ℚ)) (d : String) :
    lookupA m d = if hasKey m d then some (lookupD m d 0) else none := by
  simp only [hasKey, lookupD]
  cases lookupA m d <;> simp

/-- The specification's per-list RRF contribution: the sum of
`1/(K + rank)` over the (1-based, counting from `rank`) positions at
which `d` occurs in the id list. -/
def rrfContribSpec (k : ℕ) : ℕ → String → List String → ℚ
  | _, _, [] => 0
  | rank, d, d' :: rest =>
    (if d' = d then 1 / ((k : ℚ) + rank) else 0) + rrfContribSpec k (rank + 1) d rest

theorem lookupD_rrfLoop (k : ℕ) (l : List (String × ℚ)) (rank : ℕ)
    (acc : List (String × ℚ)) (d : String) :
    lookupD (rrfLoop k rank acc l) d 0 =
      lookupD acc d 0 + rrfContribSpec k rank d (l.map Prod.fst) := by
  induction l generalizing rank acc with
  | nil => simp [rrfLoop, rrfContribSpec]
  | cons hd rest ih =>
    obtain ⟨d', v⟩ := hd
    simp only [rrfLoop, List.map_cons, rrfContribSpec]
    rw [ih]
    simp only [lookupD, lookupA_bump]
    by_cases h : d' = d
    · simp [h, add_assoc, add_comm]
      ring
    · simp [h]

theorem hasKey_rrfLoop (k : ℕ) (l : List (String × ℚ)) (rank : ℕ)
    (acc : List (String × ℚ)) (d : String) :
    hasKey (rrfLoop k rank acc l) d = (hasKey acc d || l.any (fun p => p.1 = d)) := by
  induction l generalizing rank acc with
  | nil => simp [rrfLoop]
  | cons hd rest ih =>
    obtain ⟨d', v⟩ := hd
    simp only [rrfLoop, List.any_cons]
    rw [ih, hasKey_bump]
    by_cases h : d' = d <;> simp [h, Bool.or_assoc]

theorem nodup_rrfLoop (k : ℕ) (l : List (String × ℚ)) (rank : ℕ)
    (acc : List (String × ℚ)) (h : (keysA acc).Nodup) :
    (keysA (rrfLoop k rank acc l)).Nodup := by
  induction l generalizing rank acc with
  | nil => simpa [rrfLoop]
  | cons hd rest ih =>
    obtain ⟨d', v⟩ := hd
    exact ih _ _ (nodup_keysA_bump _ _ _ h)

theorem lookupD_rrf_foldl (k : ℕ) (lists : List (List (String × ℚ)))
    (acc : List (String × ℚ)) (d : String) :
    lookupD (lists.foldl (fun acc results => rrfLoop k 1 acc results) acc) d 0 =
      lookupD acc d 0 + (lists.map (fun l => rrfContribSpec k 1 d (l.map Prod.fst))).sum := by
  induction lists generalizing acc with
  | nil => simp
  | cons l rest ih =>
    simp only [List.foldl_cons, List.map_cons, List.sum_cons]
    rw [ih, lookupD_rrfLoop]
    ring

/-- C3's core identity for `search_enhancements.reciprocal_rank_fusion`. -/
theorem lookupD_rrf (k : ℕ) (lists : List (List (String × ℚ))) (d : String) :
    lookupD (reciprocal_rank_fusion k lists) d 0 =
      (lists.map (fun l => rrfContribSpec k 1 d (l.map Prod.fst))).sum := by
  have := lookupD_rrf_foldl k lists [] d
  simpa [reciprocal_rank_fusion, lookupD] using this

theorem hasKey_rrf_foldl (k : ℕ) (lists : List (List (String × ℚ)))
    (acc : List (String × ℚ)) (d : String) :
    hasKey (lists.foldl (fun acc results => rrfLoop k 1 acc results) acc) d =
      (hasKey acc d || lists.any (fun l => l.any (fun p => p.1 = d))) := by
  induction lists generalizing acc with
  | nil => simp
  | cons l rest ih =>
    simp only [List.foldl_cons, List.any_cons]
    rw [ih, hasKey_rrfLoop]
    simp [Bool.or_assoc]

theorem hasKey_rrf (k : ℕ) (lists : List (List (String × ℚ))) (d : String) :
    hasKey (reciprocal_rank_fusion k lists) d =
      lists.any (fun l => l.any (fun p => p.1 = d)) := by
  have := hasKey_rrf_foldl k lists [] d
  simpa [reciprocal_rank_fusion, hasKey] using this

theorem nodup_keysA_rrf (k : ℕ) (lists : List (List (String × ℚ))) :
    (keysA (reciprocal_rank_fusion k lists)).Nodup := by
  rw [reciprocal_rank_fusion]
  generalize hacc : ([] : List (String × ℚ)) = acc
  have hnd : (keysA acc).Nodup := by rw [← hacc]; simp [keysA]
  clear hacc
  induction lists generalizing acc with
  | nil => simpa
  | cons l rest ih => exact ih _ (nodup_rrfLoop k l 1 acc hnd)

/-- `DynamicHybridSearch`'s accumulation loop agrees with
`search_enhancements`' after projecting each tuple to its id. -/
theorem dynRRFLoop_eq_rrfLoop (k : ℕ) (l : List Cand) (rank : ℕ)
    (acc : List (String × ℚ)) :
    dynRRFLoop k rank acc l = rrfLoop k rank acc (l.map (fun c => (c.1, (0 : ℚ)))) := by
  induction l generalizing rank acc with
  | nil => simp [dynRRFLoop, rrfLoop]
  | cons hd rest ih => simp [dynRRFLoop, rrfLoop, ih]

theorem dynRRFRaw_eq_rrf (k : ℕ) (lists : List (List Cand)) :
    dynRRFRaw k lists =
      reciprocal_rank_fusion k (lists.map (fun l => l.map (fun c => (c.1, (0 : ℚ))))) := by
  rw [dynRRFRaw, reciprocal_rank_fusion, List.foldl_map]
  suffices h : ∀ acc : List (String × ℚ),
      lists.foldl (fun a l => dynRRFLoop k 1 a l) acc =
        lists.foldl (fun a l => rrfLoop k 1 a (l.map (fun c => (c.1, (0 : ℚ))))) acc from
    h []
  intro acc
  induction lists generalizing acc with
  | nil => rfl
  | cons l rest ih =>
    simp only [List.foldl_cons]
    rw [dynRRFLoop_eq_rrfLoop]
    exact ih _

/-! ### Claims C2 and C3 -/

theorem hasKey_rrf_perm (k : ℕ) (lists lists' : List (List (String × ℚ)))
    (hperm : lists.Perm lists') (d : String) :
    hasKey (reciprocal_rank_fusion k lists) d =
      hasKey (reciprocal_rank_fusion k lists') d := by
  rw [hasKey_rrf, hasKey_rrf]
  have hiff : (lists.any (fun l => l.any (fun p => p.1 = d)) = true) ↔
      (lists'.any (fun l => l.any (fun p => p.1 = d)) = true) := by
    simp only [List.any_eq_true]
    constructor
    · rintro ⟨l, hl, h⟩; exact ⟨l, hperm.mem_iff.mp hl, h⟩
    · rintro ⟨l, hl, h⟩; exact ⟨l, hperm.mem_iff.mpr hl, h⟩
  cases hA : lists.any (fun l => l.any (fun p => p.1 = d)) <;>
    cases hB : lists'.any (fun l => l.any (fun p => p.1 = d))
  · rfl
  · rw [hA, hB] at hiff; simp at hiff
  · rw [hA, hB] at hiff; simp at hiff
  · rfl

theorem lookupA_rrf_perm (k : ℕ) (lists lists' : List (List (String × ℚ)))
    (hperm : lists.Perm lists') (d : String) :
    lookupA (reciprocal_rank_fusion k lists) d =
      lookupA (reciprocal_rank_fusion k lists') d := by
  rw [lookupA_eq_ite_hasKey, lookupA_eq_ite_hasKey,
    hasKey_rrf_perm k lists lists' hperm d]
  by_cases h : hasKey (reciprocal_rank_fusion k lists') d
  · simp only [h, if_true]
    rw [lookupD_rrf, lookupD_rrf]
    exact congrArg _ ((hperm.map _).sum_eq)
  · simp [h]

/-- C2 (amended): the fusion accumulation is a pure function (identical
reruns trivially agree), and permuting the supplied ranked lists
preserves the fused score *mapping* — every docID receives the same
score, and exactly the same docIDs are present — in both
`search_enhancements.reciprocal_rank_fusion` and the accumulation loop
of `DynamicHybridSearch.reciprocal_rank_fusion`.  (The insertion
*sequence* of the Python dict is not preserved; see the
counterexample.) -/
theorem c2_fusion_score_map_perm_invariant (k : ℕ)
    (lists lists' : List (List (String × ℚ))) (hperm : lists.Perm lists')
    (dlists dlists' : List (List Cand)) (hdperm : dlists.Perm dlists')
    (d : String) :
    lookupA (reciprocal_rank_fusion k lists) d =
      lookupA (reciprocal_rank_fusion k lists') d ∧
    lookupA (dynRRFRaw k dlists) d = lookupA (dynRRFRaw k dlists') d := by
  refine ⟨lookupA_rrf_perm k lists lists' hperm d, ?_⟩
  rw [dynRRFRaw_eq_rrf, dynRRFRaw_eq_rrf]
  exact lookupA_rrf_perm k _ _ (hdperm.map _) d

/-- C2 witness: the score-map invariance applied to a concrete
permutation of two one-element ranked lists. -/
theorem c2_fusion_score_map_perm_invariant_witness :
    lookupA (reciprocal_rank_fusion 60 [[("A", (1 : ℚ))], [("B", (1 : ℚ))]]) "A" =
      lookupA (reciprocal_rank_fusion 60 [[("B", (1 : ℚ))], [("A", (1 : ℚ))]]) "A" ∧
    lookupA (dynRRFRaw 60 [[("A", "t", ([] : Meta))], [("B", "u", ([] : Meta))]]) "B" =
      lookupA (dynRRFRaw 60 [[("B", "u", ([] : Meta))], [("A", "t", ([] : Meta))]]) "B" := by
  have h := c2_fusion_score_map_perm_invariant 60
    [[("A", (1 : ℚ))], [("B", (1 : ℚ))]] [[("B", (1 : ℚ))], [("A", (1 : ℚ))]]
    (by decide)
    [[("A", "t", ([] : Meta))], [("B", "u", ([] : Meta))]]
    [[("B", "u", ([] : Meta))], [("A", "t", ([] : Meta))]]
    (by decide) "A"
  have h' := c2_fusion_score_map_perm_invariant 60
    [[("A", (1 : ℚ))], [("B", (1 : ℚ))]] [[("B", (1 : ℚ))], [("A", (1 : ℚ))]]
    (by decide)
    [[("A", "t", ([] : Meta))], [("B", "u", ([] : Meta))]]
    [[("B", "u", ([] : Meta))], [("A", "t", ([] : Meta))]]
    (by decide) "B"
  exact ⟨h.1, h'.2⟩

/-- C2 counterexample: supplying the same two ranked lists in swapped
order yields a *different output sequence* (the dict's insertion order
follows the scan order), refuting the claim that the output sequence —
"same docIDs, same scores, same order" — is permutation-invariant. -/
theorem c2_fusion_output_sequence_not_perm_invariant :
    [[("A", (1 : ℚ))], [("B", (1 : ℚ))]].Perm [[("B", (1 : ℚ))], [("A", (1 : ℚ))]] ∧
    reciprocal_rank_fusion 60 [[("A", (1 : ℚ))], [("B", (1 : ℚ))]] ≠
      reciprocal_rank_fusion 60 [[("B", (1 : ℚ))], [("A", (1 : ℚ))]] := by
  constructor
  · decide
  · decide

/-- C3: in both fusion implementations the accumulated score of every
docID equals the sum over the supplied lists of `1/(K + rank)` at each
1-based rank where the docID occurs (summed, never overwritten), and the
fused dict holds each docID exactly once. -/
theorem c3_rrf_score_sum_and_dedup (k : ℕ) (lists : List (List (String × ℚ)))
    (dlists : List (List Cand)) (d : String) :
    lookupD (reciprocal_rank_fusion k lists) d 0 =
      (lists.map (fun l => rrfContribSpec k 1 d (l.map Prod.fst))).sum ∧
    (keysA (reciprocal_rank_fusion k lists)).Nodup ∧
    lookupD (dynRRFRaw k dlists) d 0 =
      (dlists.map (fun l => rrfContribSpec k 1 d (l.map (fun c => c.1)))).sum ∧
    (keysA (dynRRFRaw k dlists)).Nodup := by
  refine ⟨lookupD_rrf k lists d, nodup_keysA_rrf k lists, ?_, ?_⟩
  · rw [dynRRFRaw_eq_rrf, lookupD_rrf]
    simp only [List.map_map]
    congr 1
    refine List.map_congr_left ?_
    intro l _
    simp only [Function.comp_apply]
    rw [List.map_map]
    rfl
  · rw [dynRRFRaw_eq_rrf]
    exact nodup_keysA_rrf k _


/-! ### Claim C5: weight normalization -/

theorem dwDefaultWeights_pos (qt : String) :
    0 < (dwDefaultWeights qt).1 ∧ 0 < (dwDefaultWeights qt).2 := by
  unfold dwDefaultWeights
  split_ifs <;> norm_num

theorem dwAdjustments_pos (c : DWChars) :
    0 < (dwAdjustments c).1 ∧ 0 < (dwAdjustments c).2 := by
  unfold dwAdjustments
  split_ifs <;> norm_num

/-- C5: for every query, both weight derivations produce a pair summing
to exactly 1: the fixed per-type pairs of
`DynamicHybridSearch.calculate_dynamic_weights`, and
`DynamicWeightCalculator.calculate_weights` even after the
quote/ID/date multiplier adjustments and the renormalization. -/
theorem c5_weights_sum_to_one (query : String) (force_exact : Bool) :
    (calculate_dynamic_weights (analyze_query query)).1 +
        (calculate_dynamic_weights (analyze_query query)).2 = 1 ∧
    (calculate_weights query force_exact).1 +
        (calculate_weights query force_exact).2 = 1 := by
  constructor
  · unfold calculate_dynamic_weights
    split_ifs <;> norm_num
  · unfold calculate_weights
    by_cases hf : force_exact
    · simp only [hf, if_pos]
      norm_num
    · simp only [hf, Bool.false_eq_true, if_false]
      set c := dwAnalyzeQuery query
      obtain ⟨hw1, hw2⟩ := dwDefaultWeights_pos c.query_type
      obtain ⟨ha1, ha2⟩ := dwAdjustments_pos c
      have hv : 0 < (dwDefaultWeights c.query_type).1 * (dwAdjustments c).1 :=
        mul_pos hw1 ha1
      have hk : 0 < (dwDefaultWeights c.query_type).2 * (dwAdjustments c).2 :=
        mul_pos hw2 ha2
      have ht : 0 < (dwDefaultWeights c.query_type).1 * (dwAdjustments c).1 +
          (dwDefaultWeights c.query_type).2 * (dwAdjustments c).2 := by linarith
      simp only [if_pos ht]
      rw [div_add_div_same, div_self (ne_of_gt ht)]

/-! ### Claim C4: classifier priority -/

/-- C4: `DynamicHybridSearch.analyze_query` classifies by the priority
chain — quoted phrases or IDs detected ⇒ `exact`; otherwise dates or
numbers detected ⇒ `hybrid`; otherwise `semantic`. -/
theorem c4_query_type_priority (query : String) :
    ((analyze_query query).query_type = "exact" ↔
        ((analyze_query query).has_quotes || (analyze_query query).has_ids) = true) ∧
    ((analyze_query query).query_type = "hybrid" ↔
        (!((analyze_query query).has_quotes || (analyze_query query).has_ids) &&
          ((analyze_query query).has_dates || (analyze_query query).has_numbers)) = true) ∧
    ((analyze_query query).query_type = "semantic" ↔
        (!((analyze_query query).has_quotes || (analyze_query query).has_ids) &&
          !((analyze_query query).has_dates || (analyze_query query).has_numbers)) = true) := by
  have aux : ∀ (hq hd hi hn : Bool) (ep : List String),
      ((QueryChars.mk hq hd hi hn ep
          (if hq || hi then "exact"
           else if hd || hn then "hybrid" else "semantic")).query_type = "exact" ↔
        (hq || hi) = true) ∧
      ((QueryChars.mk hq hd hi hn ep
          (if hq || hi then "exact"
           else if hd || hn then "hybrid" else "semantic")).query_type = "hybrid" ↔
        (!(hq || hi) && (hd || hn)) = true) ∧
      ((QueryChars.mk hq hd hi hn ep
          (if hq || hi then "exact"
           else if hd || hn then "hybrid" else "semantic")).query_type = "semantic" ↔
        (!(hq || hi) && !(hd || hn)) = true) := by
    intro hq hd hi hn ep
    cases hq <;> cases hd <;> cases hi <;> cases hn <;> simp
  exact aux _ _ _ _ _

/-! ### Claim C8: cache TTL semantics -/

theorem lookupA_eraseKey_self {α : Type} (c : List (String × α)) (key : String) :
    lookupA (eraseKey c key) key = none := by
  induction c with
  | nil => simp [eraseKey]
  | cons hd tl ih =>
    obtain ⟨a, x⟩ := hd
    by_cases hak : a = key
    · simpa [eraseKey, hak] using ih
    · simpa [eraseKey, hak, lookupA] using ih

/-- C8 (amended): both caches serve a stored value only while the
entry's age is strictly below the TTL, and both report an entry at or
past the TTL as a miss; the `LRUCache` additionally deletes the expired
entry on that access, while `LLMCache.get` leaves its dict untouched
(the expired entry stays). -/
theorem c8_cache_ttl_semantics {α : Type} (st : LRUCacheSt α) (now : ℚ)
    (key : String) (llm : LLMCacheSt) (hashFn : String → String)
    (prompt : String) :
    (∀ v : α, (lruGet st now key).1 = some v →
        ∃ ts, lookupA st.cache key = some (v, ts) ∧ now - ts < st.ttl) ∧
    (∀ (v : α) (ts : ℚ), lookupA st.cache key = some (v, ts) →
        st.ttl ≤ now - ts →
        (lruGet st now key).1 = none ∧
          lookupA (lruGet st now key).2.cache key = none) ∧
    (∀ r : String, (llmGet hashFn llm now prompt).1 = some r →
        ∃ ts, lookupA llm.cache (hashFn prompt) = some (r, ts) ∧
          now - ts < llm.ttl) ∧
    (∀ (r : String) (ts : ℚ),
        lookupA llm.cache (hashFn prompt) = some (r, ts) →
        llm.ttl ≤ now - ts →
        (llmGet hashFn llm now prompt).1 = none ∧
          (llmGet hashFn llm now prompt).2 = llm) := by
  refine ⟨?_, ?_, ?_, ?_⟩
  · intro v hv
    rcases hl : lookupA st.cache key with _ | ⟨a, ts⟩
    · simp [lruGet, hl] at hv
    · by_cases hfresh : now - ts < st.ttl
      · have hav : a = v := by simpa [lruGet, hl, hfresh] using hv
        subst hav
        exact ⟨ts, rfl, hfresh⟩
      · simp [lruGet, hl, hfresh] at hv
  · intro v ts hl hexp
    have hnl : ¬ (now - ts < st.ttl) := not_lt.mpr hexp
    constructor
    · simp [lruGet, hl, hnl]
    · simp [lruGet, hl, hnl, lookupA_eraseKey_self]
  · intro r hr
    rcases hl : lookupA llm.cache (hashFn prompt) with _ | ⟨a, ts⟩
    · simp [llmGet, hl] at hr
    · by_cases hfresh : now - ts < llm.ttl
      · have har : a = r := by simpa [llmGet, hl, hfresh] using hr
        subst har
        exact ⟨ts, rfl, hfresh⟩
      · simp [llmGet, hl, hfresh] at hr
  · intro r ts hl hexp
    have hnl : ¬ (now - ts < llm.ttl) := not_lt.mpr hexp
    constructor
    · simp [llmGet, hl, hnl]
    · simp [llmGet, hl, hnl]

/-- C8 witness: both TTL-expiry branches exercised on concrete caches
with `age = TTL`. -/
theorem c8_cache_ttl_semantics_witness :
    ((lruGet (⟨10, 10, [("k", "v", 0)]⟩ : LRUCacheSt String) 10 "k").1 = none ∧
      lookupA (lruGet (⟨10, 10, [("k", "v", 0)]⟩ : LRUCacheSt String) 10 "k").2.cache "k" = none) ∧
    ((llmGet id (⟨10, [("p", "r", 0)]⟩ : LLMCacheSt) 10 "p").1 = none ∧
      (llmGet id (⟨10, [("p", "r", 0)]⟩ : LLMCacheSt) 10 "p").2 = ⟨10, [("p", "r", 0)]⟩) :=
  ⟨(c8_cache_ttl_semantics (⟨10, 10, [("k", "v", 0)]⟩ : LRUCacheSt String) 10 "k"
      (⟨10, [("p", "r", 0)]⟩ : LLMCacheSt) id "p").2.1 "v" 0 (by simp [lookupA])
      (by norm_num),
   (c8_cache_ttl_semantics (⟨10, 10, [("k", "v", 0)]⟩ : LRUCacheSt String) 10 "k"
      (⟨10, [("p", "r", 0)]⟩ : LLMCacheSt) id "p").2.2.2 "r" 0 (by simp [lookupA])
      (by norm_num)⟩

/-- C8 counterexample: the `LLMCache` does **not** evict an expired
entry on access — at `age = TTL` the lookup misses but the entry is
still present afterwards, refuting lazy eviction for both cache
implementations. -/
theorem c8_llm_cache_no_eviction :
    (llmGet id (⟨10, [("p", "r", 0)]⟩ : LLMCacheSt) 10 "p").1 = none ∧
    lookupA (llmGet id (⟨10, [("p", "r", 0)]⟩ : LLMCacheSt) 10 "p").2.cache "p" =
      some ("r", 0) := by
  constructor
  · simp [llmGet, lookupA]
  · simp [llmGet, lookupA]

/-! ### Claim C9: BM25 keyword search guarantees -/

theorem kw_foldl_eq (scores : List ℚ) (ids contents : List String)
    (l : List ℕ) (acc : List KwHit) :
    l.foldl
      (fun results idx =>
        if 0 < scores.getD idx 0 then
          results ++ [(ids.getD idx "", scores.getD idx 0, contents.getD idx "")]
        else results) acc =
    acc ++ (l.filter (fun idx => decide (0 < scores.getD idx 0))).map
      (fun idx => (ids.getD idx "", scores.getD idx 0, contents.getD idx "")) := by
  induction l generalizing acc with
  | nil => simp
  | cons x xs ih =>
    by_cases h : 0 < scores.getD x 0
    · simp only [List.foldl_cons, if_pos h, List.filter_cons, decide_eq_true h,
        List.map_cons]
      rw [ih]
      simp
    · simp only [List.foldl_cons, if_neg h, List.filter_cons]
      rw [ih]
      rw [if_neg (by simpa using h)]

/-- C9: `KeywordSearchIndex.search` returns at most `k` hits, in
non-increasing BM25 score order, all with strictly positive scores; an
empty query, a disabled index or a missing BM25 model each yield the
empty list. -/
theorem c9_keyword_search_contract (st : KWIndexState) (query : String) (k : ℕ) :
    (kwIndexSearch st query k).length ≤ k ∧
    ((kwIndexSearch st query k).map (fun h => h.2.1)).Pairwise (fun a b => b ≤ a) ∧
    (∀ h ∈ kwIndexSearch st query k, 0 < h.2.1) ∧
    (query = "" → kwIndexSearch st query k = []) ∧
    (st.enabled = false → kwIndexSearch st query k = []) ∧
    (st.bm25 = none → kwIndexSearch st query k = []) := by
  by_cases hg : (!st.enabled || st.bm25.isNone || query = "") = true
  · rw [kwIndexSearch, if_pos hg]
    refine ⟨by simp, by simp, by simp, fun _ => rfl, fun _ => rfl, fun _ => rfl⟩
  · have hout : kwIndexSearch st query k =
        (if tokenize st.nltkTok st.stop_words query = [] then [] else
          let scores := match st.bm25 with | some f => f (tokenize st.nltkTok st.stop_words query) | none => []
          let top_indices := (sortDescBy (fun i => scores.getD i 0) (List.range scores.length)).take k
          top_indices.foldl
            (fun results idx =>
              if 0 < scores.getD idx 0 then
                results ++ [(st.doc_ids.getD idx "", scores.getD idx 0, st.doc_contents.getD idx "")]
              else results) []) := by
      rw [kwIndexSearch, if_neg hg]
    by_cases htok : tokenize st.nltkTok st.stop_words query = []
    · rw [hout, if_pos htok]
      refine ⟨by simp, by simp, by simp, fun _ => rfl, fun _ => rfl, fun _ => rfl⟩
    · rw [hout, if_neg htok]
      simp only []
      set scores := (match st.bm25 with
        | some f => f (tokenize st.nltkTok st.stop_words query)
        | none => ([] : List ℚ)) with hscores
      set top_indices :=
        (sortDescBy (fun i => scores.getD i 0) (List.range scores.length)).take k
        with htop
      rw [kw_foldl_eq]
      simp only [List.nil_append]
      have hguards : (query = "" → True) ∧ (st.enabled = false → True) ∧
          (st.bm25 = none → True) := by simp
      refine ⟨?_, ?_, ?_, ?_, ?_, ?_⟩
      · calc ((top_indices.filter (fun idx => decide (0 < scores.getD idx 0))).map _).length
            = (top_indices.filter (fun idx => decide (0 < scores.getD idx 0))).length := by
              rw [List.length_map]
          _ ≤ top_indices.length := List.length_filter_le _ _
          _ ≤ k := by
              rw [htop]
              exact List.length_take_le _ _
      · rw [List.map_map]
        have hsorted : (sortDescBy (fun i => scores.getD i 0)
            (List.range scores.length)).Pairwise
            (fun a b => scores.getD b 0 ≤ scores.getD a 0) :=
          sorted_sortDescBy _ _
        have hsub : (top_indices.filter (fun idx => decide (0 < scores.getD idx 0))).Sublist
            (sortDescBy (fun i => scores.getD i 0) (List.range scores.length)) := by
          refine List.Sublist.trans (List.filter_sublist _) ?_
          rw [htop]
          exact List.take_sublist _ _
        have := hsorted.sublist hsub
        exact (List.pairwise_map.mpr (by simpa using this))
      · intro h hmem
        rcases List.mem_map.mp hmem with ⟨idx, hidx, hgh⟩
        have := List.of_mem_filter hidx
        rw [← hgh]
        simpa using this
      · intro hq
        exfalso
        apply hg
        simp [hq]
      · intro he
        exfalso
        apply hg
        simp [he]
      · intro hb
        exfalso
        apply hg
        simp [hb]

/-- C9 witness: the contract applied to a concrete index — the empty
query returns the empty list, a populated index returns at most `k`
positive-score hits. -/
theorem c9_keyword_search_contract_witness :
    kwIndexSearch
      (⟨true, some (fun _ => [3, 0, 5]), ["d0", "d1", "d2"], ["c0", "c1", "c2"], [], none⟩ :
        KWIndexState) "" 2 = [] ∧
    (kwIndexSearch
      (⟨true, some (fun _ => [3, 0, 5]), ["d0", "d1", "d2"], ["c0", "c1", "c2"], [], none⟩ :
        KWIndexState) "q" 2).length ≤ 2 :=
  ⟨(c9_keyword_search_contract _ "" 2).2.2.2.1 rfl,
   (c9_keyword_search_contract
      (⟨true, some (fun _ => [3, 0, 5]), ["d0", "d1", "d2"], ["c0", "c1", "c2"], [], none⟩ :
        KWIndexState) "q" 2).1⟩

/-! ### Claim C1: empty-query handling -/

/-- C1 (amended): for every whitespace-only (or empty) query both search
entry points return immediately with the **empty result list** — the
ordinary "no results" value, not an error — and zero backend (vector or
keyword) calls are made: no fan-out begins. -/
theorem c1_empty_query_no_fanout (basic : BasicO) (kwIdx : KWIdxO)
    (pyset : List String → List String) (query : String) (k : ℕ) (alpha : ℚ)
    (use_rrf : Bool) (hws : pyStrip query = "") :
    hybrid_search basic kwIdx pyset query k alpha use_rrf = (Except.ok [], 0) ∧
    enhanced_search basic kwIdx pyset query k = ([], 0) := by
  constructor
  · rw [hybrid_search, if_pos (by simp [hws])]
  · rw [enhanced_search, if_pos (by simp [hws])]

/-- C1 witness: the guard applied to the one-space query with mocked
backends. -/
theorem c1_empty_query_no_fanout_witness :
    pyStrip " " = "" ∧
    hybrid_search (fun _ _ => some []) ⟨true, fun _ _ => some []⟩ id " " 5
        (7/10) true = (Except.ok [], 0) ∧
    enhanced_search (fun _ _ => some []) ⟨true, fun _ _ => some []⟩ id " " 5 =
        ([], 0) :=
  ⟨by decide,
   (c1_empty_query_no_fanout (fun _ _ => some []) ⟨true, fun _ _ => some []⟩ id
      " " 5 (7/10) true (by decide)).1,
   (c1_empty_query_no_fanout (fun _ _ => some []) ⟨true, fun _ _ => some []⟩ id
      " " 5 (7/10) true (by decide)).2⟩

/-- C1 counterexample: on a whitespace-only query `hybrid_search`
returns the ordinary success value `Except.ok []` — the same value an
exhausted search returns — and not an error: no caller-visible
validation error is produced. -/
theorem c1_no_validation_error_returned :
    (hybrid_search (fun _ _ => some []) ⟨true, fun _ _ => some []⟩ id " " 5
        (7/10) true).1 = Except.ok [] ∧
    (hybrid_search (fun _ _ => some []) ⟨true, fun _ _ => some []⟩ id " " 5
        (7/10) true).1.isOk = true := by
  constructor
  · rfl
  · rfl

/-! ### Lemmas for the `DynamicHybridSearch` fusion pipeline -/

theorem lookupA_foldl_setA_skip (l : List (String × ℚ)) (f : String → ℚ → ℚ)
    (acc : List (String × ℚ)) (a : String) (w : ℚ)
    (hl : lookupA l a = none) (hacc : lookupA acc a = some w) :
    lookupA (l.foldl (fun ws p => setA ws p.1 (f p.1 p.2)) acc) a = some w := by
  induction l generalizing acc with
  | nil => simpa using hacc
  | cons hd tl ih =>
    obtain ⟨b, y⟩ := hd
    by_cases hba : b = a
    · simp [lookupA, hba] at hl
    · simp only [lookupA, if_neg hba] at hl
      simp only [List.foldl_cons]
      apply ih
      · exact hl
      · rw [lookupA_setA, if_neg hba]
        exact hacc

theorem lookupA_foldl_setA_some (l : List (String × ℚ)) (f : String → ℚ → ℚ)
    (acc : List (String × ℚ)) (d : String) (v : ℚ)
    (hnd : (keysA l).Nodup) (h : lookupA l d = some v) :
    lookupA (l.foldl (fun ws p => setA ws p.1 (f p.1 p.2)) acc) d = some (f d v) := by
  induction l generalizing acc with
  | nil => simp at h
  | cons hd tl ih =>
    obtain ⟨a, x⟩ := hd
    rw [keysA, List.map_cons, List.nodup_cons] at hnd
    simp only [List.foldl_cons]
    by_cases had : a = d
    · subst had
      simp only [lookupA, if_pos rfl] at h
      obtain rfl : x = v := by simpa using h
      have hnone : lookupA tl a = none := by
        apply lookupA_not_hasKey
        cases hk : hasKey tl a
        · rfl
        · exact absurd (mem_keysA_of_hasKey tl a hk) hnd.1
      apply lookupA_foldl_setA_skip tl f _ a (f a x) hnone
      rw [lookupA_setA]
      simp
    · simp only [lookupA, if_neg had] at h
      apply ih
      · exact hnd.2
      · exact h

theorem lookupA_foldl_setA_none (l : List (String × ℚ)) (f : String → ℚ → ℚ)
    (acc : List (String × ℚ)) (d : String) (h : lookupA l d = none) :
    lookupA (l.foldl (fun ws p => setA ws p.1 (f p.1 p.2)) acc) d = lookupA acc d := by
  induction l generalizing acc with
  | nil => simp
  | cons hd tl ih =>
    obtain ⟨a, x⟩ := hd
    by_cases had : a = d
    · simp [lookupA, had] at h
    · simp only [lookupA, if_neg had] at h
      simp only [List.foldl_cons]
      rw [ih _ h, lookupA_setA, if_neg had]

theorem mem_foldl_setA (l : List (String × ℚ)) (f : String → ℚ → ℚ)
    (acc : List (String × ℚ)) (e : String × ℚ)
    (h : e ∈ l.foldl (fun ws p => setA ws p.1 (f p.1 p.2)) acc) :
    e ∈ acc ∨ ∃ p ∈ l, e = (p.1, f p.1 p.2) := by
  induction l generalizing acc with
  | nil => exact Or.inl h
  | cons hd tl ih =>
    obtain ⟨a, x⟩ := hd
    simp only [List.foldl_cons] at h
    rcases ih _ h with h1 | ⟨p, hp, he⟩
    · rcases mem_setA _ _ _ _ h1 with h2 | h2
      · right; exact ⟨(a, x), by simp, h2⟩
      · left; exact h2
    · right; exact ⟨p, by simp [hp], he⟩

theorem foldl_max_bounds (l : List ℚ) (a : ℚ) :
    a ≤ l.foldl max a ∧ ∀ x ∈ l, x ≤ l.foldl max a := by
  induction l generalizing a with
  | nil => simp
  | cons y ys ih =>
    obtain ⟨h1, h2⟩ := ih (max a y)
    refine ⟨le_trans (le_max_left a y) h1, ?_⟩
    intro x hx
    rcases List.mem_cons.mp hx with rfl | hx'
    · exact le_trans (le_max_right a x) h1
    · exact h2 x hx'

theorem foldl_min_bounds (l : List ℚ) (a : ℚ) :
    l.foldl min a ≤ a ∧ ∀ x ∈ l, l.foldl min a ≤ x := by
  induction l generalizing a with
  | nil => simp
  | cons y ys ih =>
    obtain ⟨h1, h2⟩ := ih (min a y)
    refine ⟨le_trans h1 (min_le_left a y), ?_⟩
    intro x hx
    rcases List.mem_cons.mp hx with rfl | hx'
    · exact le_trans h1 (min_le_right a x)
    · exact h2 x hx'

theorem foldl_max_const (l : List ℚ) (a : ℚ) (h : ∀ x ∈ l, x = a) :
    l.foldl max a = a := by
  induction l with
  | nil => rfl
  | cons y ys ih =>
    have hy : y = a := h y (by simp)
    simp only [List.foldl_cons, hy, max_self]
    exact ih (fun x hx => h x (by simp [hx]))

theorem foldl_min_const (l : List ℚ) (a : ℚ) (h : ∀ x ∈ l, x = a) :
    l.foldl min a = a := by
  induction l with
  | nil => rfl
  | cons y ys ih =>
    have hy : y = a := h y (by simp)
    simp only [List.foldl_cons, hy, min_self]
    exact ih (fun x hx => h x (by simp [hx]))

theorem normalizeScoresA_mem_unit (m : List (String × ℚ)) (p : String × ℚ)
    (hp : p ∈ normalizeScoresA m) : 0 ≤ p.2 ∧ p.2 ≤ 1 := by
  match m with
  | [] => simp [normalizeScoresA] at hp
  | q :: rest =>
    simp only [normalizeScoresA] at hp
    by_cases hlt : (rest.map Prod.snd).foldl min q.2 < (rest.map Prod.snd).foldl max q.2
    · rw [if_pos hlt] at hp
      rcases List.mem_map.mp hp with ⟨r, hr, hrp⟩
      have hrle : r.2 ≤ (rest.map Prod.snd).foldl max q.2 := by
        rcases List.mem_cons.mp hr with hreq | hr'
        · rw [hreq]
          exact (foldl_max_bounds _ _).1
        · exact (foldl_max_bounds _ _).2 r.2 (List.mem_map.mpr ⟨r, hr', rfl⟩)
      have hrge : (rest.map Prod.snd).foldl min q.2 ≤ r.2 := by
        rcases List.mem_cons.mp hr with hreq | hr'
        · rw [hreq]
          exact (foldl_min_bounds _ _).1
        · exact (foldl_min_bounds _ _).2 r.2 (List.mem_map.mpr ⟨r, hr', rfl⟩)
      have hd : (0 : ℚ) < (rest.map Prod.snd).foldl max q.2 -
          (rest.map Prod.snd).foldl min q.2 := by linarith
      rw [← hrp]
      refine ⟨div_nonneg (by linarith) (le_of_lt hd), ?_⟩
      rw [div_le_one hd]
      linarith
    · rw [if_neg hlt] at hp
      rcases List.mem_map.mp hp with ⟨r, _, hrp⟩
      rw [← hrp]
      norm_num

theorem normalizeScoresA_const_half (m : List (String × ℚ))
    (h : ∀ p ∈ m, ∀ q ∈ m, p.2 = q.2) (r : String × ℚ)
    (hr : r ∈ normalizeScoresA m) : r.2 = 1 / 2 := by
  match m with
  | [] => simp [normalizeScoresA] at hr
  | q :: rest =>
    simp only [normalizeScoresA] at hr
    have hconst : ∀ x ∈ rest.map Prod.snd, x = q.2 := by
      intro x hx
      rcases List.mem_map.mp hx with ⟨p, hp, hpx⟩
      rw [← hpx]
      exact h p (by simp [hp]) q (by simp)
    rw [foldl_max_const _ _ hconst, foldl_min_const _ _ hconst] at hr
    rw [if_neg (lt_irrefl q.2)] at hr
    rcases List.mem_map.mp hr with ⟨p, _, hpr⟩
    rw [← hpr]

theorem lookupA_map_value {α β : Type} (m : List (String × α)) (g : α → β)
    (d : String) :
    lookupA (m.map (fun q => (q.1, g q.2))) d = (lookupA m d).map g := by
  induction m with
  | nil => simp
  | cons hd tl ih =>
    obtain ⟨a, x⟩ := hd
    by_cases had : a = d <;> simp [lookupA, had, ih]

theorem hasKey_map_value {α β : Type} (m : List (String × α)) (g : α → β)
    (d : String) :
    hasKey (m.map (fun q => (q.1, g q.2))) d = hasKey m d := by
  simp [hasKey, lookupA_map_value]

theorem keysA_map_value {α β : Type} (m : List (String × α)) (g : α → β) :
    keysA (m.map (fun q => (q.1, g q.2))) = keysA m := by
  simp only [keysA, List.map_map]
  rfl

theorem hasKey_normalizeScoresA (m : List (String × ℚ)) (d : String) :
    hasKey (normalizeScoresA m) d = hasKey m d := by
  match m with
  | [] => rfl
  | q :: rest =>
    simp only [normalizeScoresA]
    by_cases hlt : (rest.map Prod.snd).foldl min q.2 < (rest.map Prod.snd).foldl max q.2
    · rw [if_pos hlt]
      exact hasKey_map_value (q :: rest)
        (fun t => (t - (rest.map Prod.snd).foldl min q.2) /
          ((rest.map Prod.snd).foldl max q.2 - (rest.map Prod.snd).foldl min q.2)) d
    · rw [if_neg hlt]
      exact hasKey_map_value (q :: rest) (fun _ => (1 : ℚ) / 2) d

theorem nodup_keysA_normalizeScoresA (m : List (String × ℚ))
    (h : (keysA m).Nodup) : (keysA (normalizeScoresA m)).Nodup := by
  match m with
  | [] => simpa [normalizeScoresA]
  | q :: rest =>
    simp only [normalizeScoresA]
    by_cases hlt : (rest.map Prod.snd).foldl min q.2 < (rest.map Prod.snd).foldl max q.2
    · rw [if_pos hlt]
      rw [keysA_map_value (q :: rest)
        (fun t => (t - (rest.map Prod.snd).foldl min q.2) /
          ((rest.map Prod.snd).foldl max q.2 - (rest.map Prod.snd).foldl min q.2))]
      exact h
    · rw [if_neg hlt]
      rw [keysA_map_value (q :: rest) (fun _ => (1 : ℚ) / 2)]
      exact h

/-! ### Claim C6: per-family weight scaling -/

theorem list_any_map {α β : Type} (l : List α) (f : α → β) (p : β → Bool) :
    (l.map f).any p = l.any (fun x => p (f x)) := by
  induction l with
  | nil => rfl
  | cons x xs ih => simp [ih]

theorem hasKey_dynRRFRaw (k : ℕ) (rl : List (List Cand)) (d : String) :
    hasKey (dynRRFRaw k rl) d = rl.any (fun l => l.any (fun c => c.1 = d)) := by
  rw [dynRRFRaw_eq_rrf, hasKey_rrf, list_any_map]
  congr 1
  funext l
  rw [list_any_map]

theorem hasKey_dynRRF (k : ℕ) (normalize : Bool) (rl : List (List Cand)) (d : String) :
    hasKey (dynRRF k normalize rl) d = rl.any (fun l => l.any (fun c => c.1 = d)) := by
  rw [dynRRF]
  by_cases hc : (normalize && decide (dynRRFRaw k rl ≠ [])) = true
  · rw [if_pos hc, hasKey_normalizeScoresA, hasKey_dynRRFRaw]
  · rw [if_neg hc, hasKey_dynRRFRaw]

theorem nodup_keysA_dynRRF (k : ℕ) (normalize : Bool) (rl : List (List Cand)) :
    (keysA (dynRRF k normalize rl)).Nodup := by
  have hraw : (keysA (dynRRFRaw k rl)).Nodup := by
    rw [dynRRFRaw_eq_rrf]
    exact nodup_keysA_rrf k _
  rw [dynRRF]
  by_cases hc : (normalize && decide (dynRRFRaw k rl ≠ [])) = true
  · rw [if_pos hc]
    exact nodup_keysA_normalizeScoresA _ hraw
  · rw [if_neg hc]
    exact hraw

theorem calculate_dynamic_weights_bounds (c : QueryChars) :
    0 < (calculate_dynamic_weights c).1 ∧ (calculate_dynamic_weights c).1 ≤ 1 ∧
    0 < (calculate_dynamic_weights c).2 ∧ (calculate_dynamic_weights c).2 ≤ 1 := by
  unfold calculate_dynamic_weights
  split_ifs <;> norm_num

theorem dynGather_head (basic : String → ℕ → List Cand)
    (kwS : String → ℕ → List KwHit) (kwEnabled : Bool) (chars : QueryChars)
    (vector_weight keyword_weight : ℚ) (query : String) (k : ℕ)
    (hvw : 0 < vector_weight) :
    ∃ rest, (dynGather basic kwS kwEnabled chars vector_weight keyword_weight query k).1 =
      basic query (k * 3) :: rest := by
  rw [dynGather]
  simp only [if_pos hvw]
  have aux : ∀ (ph : List String) (st : List (List Cand) × List (String × String × Meta)),
      ∃ extra, (ph.foldl
        (fun st phrase =>
          (st.1 ++ [(kwS phrase (k * 2)).map (fun h => (h.1, h.2.2, ([] : Meta)))],
           (kwS phrase (k * 2)).foldl
             (fun d h => if hasKey d h.1 then d else setA d h.1 (h.2.2, [])) st.2))
        st).1 = st.1 ++ extra := by
    intro ph
    induction ph with
    | nil => intro st; exact ⟨[], by simp⟩
    | cons p ps ih =>
      intro st
      simp only [List.foldl_cons]
      obtain ⟨extra, hextra⟩ := ih
        (st.1 ++ [(kwS p (k * 2)).map (fun h => (h.1, h.2.2, ([] : Meta)))],
         (kwS p (k * 2)).foldl
           (fun d h => if hasKey d h.1 then d else setA d h.1 (h.2.2, [])) st.2)
      exact ⟨[(kwS p (k * 2)).map (fun h => (h.1, h.2.2, ([] : Meta)))] ++ extra,
        by rw [hextra]; simp⟩
  by_cases hkw : (decide (0 < keyword_weight) && kwEnabled) = true
  · rw [if_pos hkw]
    by_cases hep : chars.exact_phrases ≠ []
    · rw [if_pos hep]
      obtain ⟨extra, hextra⟩ := aux chars.exact_phrases
        ([basic query (k * 3)],
         (basic query (k * 3)).foldl (fun d r => setA d r.1 (r.2.1, r.2.2)) [])
      exact ⟨extra, by rw [hextra]; simp⟩
    · rw [if_neg hep]
      exact ⟨[(kwS query (k * 3)).map (fun h => (h.1, h.2.2, ([] : Meta)))], by simp⟩
  · rw [if_neg hkw]
    exact ⟨[], rfl⟩

theorem foundInVector_cons (l0 : List Cand) (rest : List (List Cand)) (d : String) :
    foundInVector (l0 :: rest) d = l0.any (fun r => d = r.1) := rfl

theorem foundInKeyword_cons (l0 : List Cand) (rest : List (List Cand)) (d : String) :
    foundInKeyword (l0 :: rest) d =
      if (l0 :: rest).length > 1 then
        rest.any (fun results => results.any (fun r => d = r.1))
      else false := rfl

/-- C6: in `DynamicHybridSearch.search`, after the (normalized) RRF
accumulation every fused docID's weighted score is: the unscaled RRF
score when found by both the vector list (`result_lists[0]`, which is
always the vector search's output since the vector weight is positive)
and some keyword list; the RRF score times `vector_weight` when found
only by the vector list; and the RRF score times `keyword_weight` when
found only by keyword lists. -/
theorem c6_family_weight_scaling (basic : String → ℕ → List Cand)
    (kwS : String → ℕ → List KwHit) (kwEnabled : Bool) (query : String) (k : ℕ)
    (d : String) (s : ℚ) (rl : List (List Cand))
    (dc : List (String × String × Meta)) (vw kw : ℚ)
    (hw : calculate_dynamic_weights (analyze_query query) = (vw, kw))
    (hg : dynGather basic kwS kwEnabled (analyze_query query) vw kw query k = (rl, dc))
    (h : lookupA (dynWeighted rl (dynRRF 60 true rl) vw kw) d = some s) :
    rl.head? = some (basic query (k * 3)) ∧
    ((foundInVector rl d = true ∧ foundInKeyword rl d = true ∧
        s = lookupD (dynRRF 60 true rl) d 0) ∨
     (foundInVector rl d = true ∧ foundInKeyword rl d = false ∧
        s = lookupD (dynRRF 60 true rl) d 0 * vw) ∨
     (foundInVector rl d = false ∧ foundInKeyword rl d = true ∧
        s = lookupD (dynRRF 60 true rl) d 0 * kw)) := by
  have hvw : 0 < vw := by
    have := (calculate_dynamic_weights_bounds (analyze_query query)).1
    rw [hw] at this
    exact this
  have hhead : rl.head? = some (basic query (k * 3)) := by
    obtain ⟨rest, hrest⟩ := dynGather_head basic kwS kwEnabled (analyze_query query)
      vw kw query k hvw
    rw [hg] at hrest
    have hrl : rl = basic query (k * 3) :: rest := hrest
    rw [hrl]
    rfl
  refine ⟨hhead, ?_⟩
  -- decompose the weighted-scores fold
  have hnd := nodup_keysA_dynRRF 60 true rl
  rw [dynWeighted] at h
  have hsome : ∃ v, lookupA (dynRRF 60 true rl) d = some v := by
    rcases hv : lookupA (dynRRF 60 true rl) d with _ | v
    · have hnone := lookupA_foldl_setA_none (dynRRF 60 true rl)
        (fun a b =>
          if foundInVector rl a && foundInKeyword rl a then b
          else if foundInVector rl a then b * vw else b * kw) [] d hv
      rw [hnone] at h
      simp [lookupA] at h
    · exact ⟨v, rfl⟩
  obtain ⟨v, hv⟩ := hsome
  have hval : s = (if foundInVector rl d && foundInKeyword rl d then v
      else if foundInVector rl d then v * vw else v * kw) := by
    have hsome2 := lookupA_foldl_setA_some (dynRRF 60 true rl)
      (fun a b =>
        if foundInVector rl a && foundInKeyword rl a then b
        else if foundInVector rl a then b * vw else b * kw) [] d v hnd hv
    rw [hsome2] at h
    have := Option.some.inj h
    rw [← this]
  have hlkd : lookupD (dynRRF 60 true rl) d 0 = v := by
    rw [lookupD, hv]
    rfl
  -- coverage: d is in the concatenated lists
  have hcov : rl.any (fun l => l.any (fun c => c.1 = d)) = true := by
    rw [← hasKey_dynRRF 60 true rl d]
    simp [hasKey, hv]
  cases hfv : foundInVector rl d <;> cases hfk : foundInKeyword rl d
  · -- neither: contradicts coverage
    exfalso
    rcases List.any_eq_true.mp hcov with ⟨l, hl, hld⟩
    rcases List.any_eq_true.mp hld with ⟨c, hc, hcd⟩
    have hcd' : c.1 = d := by simpa using hcd
    rcases hhl : rl with _ | ⟨l0, rest⟩
    · rw [hhl] at hl; simp at hl
    · rw [hhl] at hl
      rcases List.mem_cons.mp hl with rfl | hlr
      · -- c in the head list contradicts foundInVector = false
        rw [hhl, foundInVector_cons] at hfv
        have hany : l.any (fun r => d = r.1) = true :=
          List.any_eq_true.mpr ⟨c, hc, by simp [hcd']⟩
        rw [hany] at hfv
        simp at hfv
      · -- c in a tail list contradicts foundInKeyword = false
        rw [hhl, foundInKeyword_cons] at hfk
        have hlen : (l0 :: rest).length > 1 := by
          rcases rest with _ | _
          · simp at hlr
          · simp
        rw [if_pos hlen] at hfk
        have hany : (rest.any (fun results => results.any (fun r => d = r.1))) = true :=
          List.any_eq_true.mpr ⟨l, by simpa using hlr,
            List.any_eq_true.mpr ⟨c, hc, by simp [hcd']⟩⟩
        rw [hany] at hfk
        simp at hfk
  · right; right
    refine ⟨rfl, rfl, ?_⟩
    rw [hval, hfv, hfk, hlkd]
    simp
  · right; left
    refine ⟨rfl, rfl, ?_⟩
    rw [hval, hfv, hfk, hlkd]
    simp
  · left
    refine ⟨rfl, rfl, ?_⟩
    rw [hval, hfv, hfk, hlkd]
    simp

/-- C6 witness: the scaling law applied to a concrete pipeline run —
query `"hello"` is semantic (weights `0.8/0.2`), the vector backend
returns doc `A`, the keyword backend doc `B`; `A` is vector-only, so its
weighted score is its normalized RRF score (`1/2`) times `0.8`, i.e.
`2/5`. -/
theorem c6_family_weight_scaling_witness :
    ([[("A", "ta", ([] : Meta))], [("B", "tb", ([] : Meta))]] :
        List (List Cand)).head? = some [("A", "ta", ([] : Meta))] ∧
    ((foundInVector [[("A", "ta", ([] : Meta))], [("B", "tb", ([] : Meta))]] "A" = true ∧
        foundInKeyword [[("A", "ta", ([] : Meta))], [("B", "tb", ([] : Meta))]] "A" = true ∧
        (2/5 : ℚ) = lookupD
          (dynRRF 60 true [[("A", "ta", ([] : Meta))], [("B", "tb", ([] : Meta))]]) "A" 0) ∨
     (foundInVector [[("A", "ta", ([] : Meta))], [("B", "tb", ([] : Meta))]] "A" = true ∧
        foundInKeyword [[("A", "ta", ([] : Meta))], [("B", "tb", ([] : Meta))]] "A" = false ∧
        (2/5 : ℚ) = lookupD
          (dynRRF 60 true [[("A", "ta", ([] : Meta))], [("B", "tb", ([] : Meta))]]) "A" 0
          * (8/10)) ∨
     (foundInVector [[("A", "ta", ([] : Meta))], [("B", "tb", ([] : Meta))]] "A" = false ∧
        foundInKeyword [[("A", "ta", ([] : Meta))], [("B", "tb", ([] : Meta))]] "A" = true ∧
        (2/5 : ℚ) = lookupD
          (dynRRF 60 true [[("A", "ta", ([] : Meta))], [("B", "tb", ([] : Meta))]]) "A" 0
          * (2/10))) := by
  have hq : analyze_query "hello" = ⟨false, false, false, false, [], "semantic"⟩ := by
    decide
  have hw : calculate_dynamic_weights (analyze_query "hello") = (8/10, 2/10) := by
    rw [hq]; simp [calculate_dynamic_weights]
  have hg : dynGather (fun _ _ => [("A", "ta", ([] : Meta))])
      (fun _ _ => [("B", (5 : ℚ), "tb")]) true (analyze_query "hello")
      (8/10) (2/10) "hello" 1 =
      ([[("A", "ta", ([] : Meta))], [("B", "tb", ([] : Meta))]],
       [("A", ("ta", ([] : Meta))), ("B", ("tb", ([] : Meta)))]) := by
    rw [hq]
    simp [dynGather, setA, hasKey, lookupA]
  have h : lookupA (dynWeighted
      [[("A", "ta", ([] : Meta))], [("B", "tb", ([] : Meta))]]
      (dynRRF 60 true [[("A", "ta", ([] : Meta))], [("B", "tb", ([] : Meta))]])
      (8/10) (2/10)) "A" = some (2/5) := by
    have hraw : dynRRFRaw 60 [[("A", "ta", ([] : Meta))], [("B", "tb", ([] : Meta))]] =
        [("A", 1/61), ("B", 1/61)] := by
      simp [dynRRFRaw, dynRRFLoop, bump]
      norm_num
    have hnrm : dynRRF 60 true [[("A", "ta", ([] : Meta))], [("B", "tb", ([] : Meta))]] =
        [("A", 1/2), ("B", 1/2)] := by
      rw [dynRRF, hraw]
      simp [normalizeScoresA]
    rw [dynWeighted, hnrm]
    simp [setA, foundInVector, foundInKeyword, lookupA]
    norm_num
  exact (c6_family_weight_scaling (fun _ _ => [("A", "ta", ([] : Meta))])
    (fun _ _ => [("B", (5 : ℚ), "tb")]) true "hello" 1 "A" (2/5)
    [[("A", "ta", ([] : Meta))], [("B", "tb", ([] : Meta))]]
    [("A", ("ta", ([] : Meta))), ("B", ("tb", ([] : Meta)))]
    (8/10) (2/10) hw hg h)

theorem normalize_scores_mem_unit (scores : List ℚ) (x : ℚ)
    (hx : x ∈ normalize_scores scores) : 0 ≤ x ∧ x ≤ 1 := by
  match scores with
  | [] => simp [normalize_scores] at hx
  | s :: rest =>
    simp only [normalize_scores] at hx
    by_cases heq : rest.foldl max s = rest.foldl min s
    · rw [if_pos heq] at hx
      rcases List.mem_map.mp hx with ⟨y, _, hyx⟩
      rw [← hyx]
      norm_num
    · rw [if_neg heq] at hx
      rcases List.mem_map.mp hx with ⟨y, hy, hyx⟩
      have hyle : y ≤ rest.foldl max s := by
        rcases List.mem_cons.mp hy with hys | hy'
        · rw [hys]
          exact (foldl_max_bounds _ _).1
        · exact (foldl_max_bounds _ _).2 y hy'
      have hyge : rest.foldl min s ≤ y := by
        rcases List.mem_cons.mp hy with hys | hy'
        · rw [hys]
          exact (foldl_min_bounds _ _).1
        · exact (foldl_min_bounds _ _).2 y hy'
      have hlt : rest.foldl min s < rest.foldl max s :=
        lt_of_le_of_ne (le_trans hyge hyle) (fun h => heq h.symm)
      have hd : (0 : ℚ) < rest.foldl max s - rest.foldl min s := by linarith
      rw [← hyx]
      refine ⟨div_nonneg (by linarith) (le_of_lt hd), ?_⟩
      rw [div_le_one hd]
      linarith

theorem normalize_scores_const_half (scores : List ℚ)
    (h : ∀ x ∈ scores, ∀ y ∈ scores, x = y) (z : ℚ)
    (hz : z ∈ normalize_scores scores) : z = 1 / 2 := by
  match scores with
  | [] => simp [normalize_scores] at hz
  | s :: rest =>
    simp only [normalize_scores] at hz
    have hconst : ∀ x ∈ rest, x = s := fun x hx =>
      h x (by simp [hx]) s (by simp)
    rw [foldl_max_const rest s hconst, foldl_min_const rest s hconst] at hz
    rw [if_pos rfl] at hz
    rcases List.mem_map.mp hz with ⟨y, _, hyz⟩
    rw [← hyz]

theorem dynCandidates_build_scores (ws : List (String × ℚ))
    (dc : List (String × String × Meta)) (acc : List (String × String × Meta × ℚ))
    (c : String × String × Meta × ℚ)
    (hc : c ∈ ws.foldl
      (fun cand p =>
        match lookupA dc p.1 with
        | some tm => cand ++ [(p.1, tm.1, tm.2, p.2)]
        | none => cand) acc) :
    c ∈ acc ∨ ∃ p ∈ ws, c.2.2.2 = p.2 := by
  induction ws generalizing acc with
  | nil => exact Or.inl hc
  | cons hd tl ih =>
    simp only [List.foldl_cons] at hc
    rcases ih _ hc with h1 | ⟨p, hp, he⟩
    · rcases hm : lookupA dc hd.1 with _ | tm
      · rw [hm] at h1
        exact Or.inl h1
      · rw [hm] at h1
        rcases List.mem_append.mp h1 with h2 | h2
        · exact Or.inl h2
        · right
          refine ⟨hd, by simp, ?_⟩
          have hce : c = (hd.1, tm.1, tm.2, hd.2) := by simpa using h2
          rw [hce]
    · right
      exact ⟨p, by simp [hp], he⟩

theorem dynCandidates_scores (ws : List (String × ℚ))
    (dc : List (String × String × Meta)) (c : String × String × Meta × ℚ)
    (hc : c ∈ dynCandidates ws dc) : ∃ p ∈ ws, c.2.2.2 = p.2 := by
  rw [dynCandidates, mem_sortDescBy] at hc
  rcases dynCandidates_build_scores ws dc [] c hc with h | h
  · simp at h
  · exact h

/-- C7 (amended): both min-max normalizations (the one inside
`DynamicHybridSearch.reciprocal_rank_fusion` and the standalone
`normalize_scores`) map every score into the unit interval, assigning
`0.5` uniformly when all scores coincide; the normalization is however
not the last scoring stage of `DynamicHybridSearch.search` — the
per-family weighting follows it — but since both weights lie in `(0,1]`
every score in the fused output still lies in `[0,1]`, and the output is
sorted descending by the final weighted scores (a plain stable sort, with
no strategy-rank tie-break). -/
theorem c7_minmax_unit_interval_and_sorted
    (basic : String → ℕ → List Cand) (kwS : String → ℕ → List KwHit)
    (kwEnabled : Bool) (query : String) (k : ℕ) (m : List (String × ℚ))
    (scores : List ℚ) :
    (∀ p ∈ normalizeScoresA m, 0 ≤ p.2 ∧ p.2 ≤ 1) ∧
    ((∀ p ∈ m, ∀ q ∈ m, p.2 = q.2) → ∀ p ∈ normalizeScoresA m, p.2 = 1 / 2) ∧
    (∀ x ∈ normalize_scores scores, 0 ≤ x ∧ x ≤ 1) ∧
    ((∀ x ∈ scores, ∀ y ∈ scores, x = y) →
      ∀ z ∈ normalize_scores scores, z = 1 / 2) ∧
    (∀ c ∈ dynSearchFused basic kwS kwEnabled query k,
        0 ≤ c.2.2.2 ∧ c.2.2.2 ≤ 1) ∧
    List.Pairwise (fun a b => b.2.2.2 ≤ a.2.2.2)
      (dynSearchFused basic kwS kwEnabled query k) := by
  refine ⟨fun p hp => normalizeScoresA_mem_unit m p hp,
    fun h p hp => normalizeScoresA_const_half m h p hp,
    fun x hx => normalize_scores_mem_unit scores x hx,
    fun h z hz => normalize_scores_const_half scores h z hz, ?_, ?_⟩
  · intro c hc
    have hc' : c ∈ dynCandidates
        (dynWeighted
          (dynGather basic kwS kwEnabled (analyze_query query)
            (calculate_dynamic_weights (analyze_query query)).1
            (calculate_dynamic_weights (analyze_query query)).2 query k).1
          (dynRRF 60 true
            (dynGather basic kwS kwEnabled (analyze_query query)
              (calculate_dynamic_weights (analyze_query query)).1
              (calculate_dynamic_weights (analyze_query query)).2 query k).1)
          (calculate_dynamic_weights (analyze_query query)).1
          (calculate_dynamic_weights (analyze_query query)).2)
        (dynGather basic kwS kwEnabled (analyze_query query)
          (calculate_dynamic_weights (analyze_query query)).1
          (calculate_dynamic_weights (analyze_query query)).2 query k).2 := hc
    obtain ⟨p, hp, hcp⟩ := dynCandidates_scores _ _ c hc'
    rw [dynWeighted] at hp
    rcases mem_foldl_setA
        (dynRRF 60 true
          (dynGather basic kwS kwEnabled (analyze_query query)
            (calculate_dynamic_weights (analyze_query query)).1
            (calculate_dynamic_weights (analyze_query query)).2 query k).1)
        (fun a b =>
          if foundInVector
              (dynGather basic kwS kwEnabled (analyze_query query)
                (calculate_dynamic_weights (analyze_query query)).1
                (calculate_dynamic_weights (analyze_query query)).2 query k).1 a &&
            foundInKeyword
              (dynGather basic kwS kwEnabled (analyze_query query)
                (calculate_dynamic_weights (analyze_query query)).1
                (calculate_dynamic_weights (analyze_query query)).2 query k).1 a then b
          else if foundInVector
              (dynGather basic kwS kwEnabled (analyze_query query)
                (calculate_dynamic_weights (analyze_query query)).1
                (calculate_dynamic_weights (analyze_query query)).2 query k).1 a then
            b * (calculate_dynamic_weights (analyze_query query)).1
          else b * (calculate_dynamic_weights (analyze_query query)).2)
        [] p hp with habs | ⟨q, hq, hpe⟩
    · simp at habs
    · have hqunit : 0 ≤ q.2 ∧ q.2 ≤ 1 := by
        by_cases hraw : dynRRFRaw 60
            (dynGather basic kwS kwEnabled (analyze_query query)
              (calculate_dynamic_weights (analyze_query query)).1
              (calculate_dynamic_weights (analyze_query query)).2 query k).1 = []
        · simp only [dynRRF, hraw] at hq
          simp at hq
        · have hnr : dynRRF 60 true
              (dynGather basic kwS kwEnabled (analyze_query query)
                (calculate_dynamic_weights (analyze_query query)).1
                (calculate_dynamic_weights (analyze_query query)).2 query k).1 =
              normalizeScoresA (dynRRFRaw 60
                (dynGather basic kwS kwEnabled (analyze_query query)
                  (calculate_dynamic_weights (analyze_query query)).1
                  (calculate_dynamic_weights (analyze_query query)).2 query k).1) := by
            simp [dynRRF, hraw]
          rw [hnr] at hq
          exact normalizeScoresA_mem_unit _ q hq
      have hwb := calculate_dynamic_weights_bounds (analyze_query query)
      rw [hcp, hpe]
      dsimp only
      split_ifs
      · exact hqunit
      · constructor
        · exact mul_nonneg hqunit.1 (le_of_lt hwb.1)
        · nlinarith [hqunit.1, hqunit.2, hwb.1, hwb.2.1]
      · constructor
        · exact mul_nonneg hqunit.1 (le_of_lt hwb.2.2.1)
        · nlinarith [hqunit.1, hqunit.2, hwb.2.2.1, hwb.2.2.2]
  · exact sorted_sortDescBy (fun c : String × String × Meta × ℚ => c.2.2.2) _


/-- C7 counterexample: normalization is not the last scoring stage and
the output is not sorted by the normalized scores themselves — on a
concrete run the RRF normalization assigns both documents `0.5`, yet the
fused output carries scores `2/5` and `1/10` (the per-family weighting is
applied after the normalization), neither of which is a normalized
score. -/
theorem c7_weighting_follows_normalization :
    dynRRF 60 true [[("A", "ta", ([] : Meta))], [("B", "tb", ([] : Meta))]] =
      [("A", 1/2), ("B", 1/2)] ∧
    dynSearchFused (fun _ _ => [("A", "ta", ([] : Meta))])
        (fun _ _ => [("B", (5 : ℚ), "tb")]) true "hello" 1 =
      [("A", "ta", ([] : Meta), 2/5), ("B", "tb", ([] : Meta), 1/10)] ∧
    (2 : ℚ)/5 ≠ 1/2 ∧ (1 : ℚ)/10 ≠ 1/2 := by
  have hq : analyze_query "hello" = ⟨false, false, false, false, [], "semantic"⟩ := by
    decide
  refine ⟨?_, ?_, by norm_num, by norm_num⟩
  · norm_num +decide [dynRRF, dynRRFRaw, dynRRFLoop, bump, normalizeScoresA]
  · norm_num +decide [dynSearchFused, hq, calculate_dynamic_weights, dynGather, setA,
      hasKey, lookupA, dynRRF, dynRRFRaw, dynRRFLoop, bump, normalizeScoresA,
      dynWeighted, foundInVector, foundInKeyword, dynCandidates, sortDescBy, insertDesc]

/-- C7 witness: the amended theorem applied to a concrete pipeline run
and concrete score lists, with every membership hypothesis discharged by
evaluation. -/
theorem c7_minmax_unit_interval_and_sorted_witness :
    (0 ≤ (("A", (1 : ℚ)/2)).2 ∧ (("A", (1 : ℚ)/2)).2 ≤ 1) ∧
    (("A", (1 : ℚ)/2)).2 = 1 / 2 ∧
    (0 ≤ (1 : ℚ) ∧ (1 : ℚ) ≤ 1) ∧
    (1 : ℚ)/2 = 1 / 2 ∧
    (0 ≤ (("A", "ta", ([] : Meta), (2 : ℚ)/5)).2.2.2 ∧
      (("A", "ta", ([] : Meta), (2 : ℚ)/5)).2.2.2 ≤ 1) ∧
    List.Pairwise (fun a b => b.2.2.2 ≤ a.2.2.2)
      (dynSearchFused (fun _ _ => [("A", "ta", ([] : Meta))])
        (fun _ _ => [("B", (5 : ℚ), "tb")]) true "hello" 1) := by
  have hq : analyze_query "hello" = ⟨false, false, false, false, [], "semantic"⟩ := by
    decide
  have hfused : dynSearchFused (fun _ _ => [("A", "ta", ([] : Meta))])
      (fun _ _ => [("B", (5 : ℚ), "tb")]) true "hello" 1 =
      [("A", "ta", ([] : Meta), 2/5), ("B", "tb", ([] : Meta), 1/10)] := by
    norm_num +decide [dynSearchFused, hq, calculate_dynamic_weights, dynGather, setA,
      hasKey, lookupA, dynRRF, dynRRFRaw, dynRRFLoop, bump, normalizeScoresA,
      dynWeighted, foundInVector, foundInKeyword, dynCandidates, sortDescBy, insertDesc]
  obtain ⟨h1, h2, h3, h4, h5, h6⟩ := c7_minmax_unit_interval_and_sorted
    (fun _ _ => [("A", "ta", ([] : Meta))])
    (fun _ _ => [("B", (5 : ℚ), "tb")]) true "hello" 1
    [("A", 1/61), ("B", 1/61)] [3, 1]
  have htie := (c7_minmax_unit_interval_and_sorted
    (fun _ _ => [("A", "ta", ([] : Meta))])
    (fun _ _ => [("B", (5 : ℚ), "tb")]) true "hello" 1
    [("A", 1/61), ("B", 1/61)] [2, 2]).2.2.2.1
  refine ⟨h1 ("A", 1/2) ?_, h2 ?_ ("A", 1/2) ?_, h3 1 ?_, htie ?_ (1/2) ?_,
    h5 ("A", "ta", ([] : Meta), 2/5) ?_, h6⟩
  · norm_num +decide [normalizeScoresA]
  · intro p hp q hq'
    simp only [List.mem_cons, List.not_mem_nil, or_false] at hp hq'
    rcases hp with rfl | rfl <;> rcases hq' with rfl | rfl <;> norm_num
  · norm_num +decide [normalizeScoresA]
  · norm_num [normalize_scores]
  · intro x hx y hy
    simp only [List.mem_cons, List.not_mem_nil, or_false, or_self] at hx hy
    rw [hx, hy]
  · norm_num [normalize_scores]
  · rw [hfused]
    simp

theorem keysA_setA {α : Type} (m : List (String × α)) (k : String) (v : α) :
    keysA (setA m k v) = if hasKey m k then keysA m else keysA m ++ [k] := by
  induction m with
  | nil => simp [setA, keysA, hasKey, lookupA]
  | cons hd tl ih =>
    obtain ⟨a, x⟩ := hd
    by_cases hak : a = k
    · simp [setA, keysA, hasKey, lookupA, hak]
    · simp only [setA, if_neg hak, keysA, List.map_cons]
      have hkk : hasKey ((a, x) :: tl) k = hasKey tl k := by
        simp [hasKey, lookupA, hak]
      rw [hkk]
      by_cases hk : hasKey tl k
      · rw [if_pos hk]
        simp only [keysA] at ih
        rw [ih, if_pos hk]
      · rw [if_neg hk]
        simp only [keysA] at ih
        rw [ih, if_neg hk]
        simp

theorem not_mem_keysA {α : Type} (m : List (String × α)) (k : String)
    (h : hasKey m k = false) : k ∉ keysA m :=
  fun hm => by rw [hasKey_of_mem_keysA m k hm] at h; exact Bool.true_eq_false.mp h

theorem nodup_keysA_setA {α : Type} (m : List (String × α)) (k : String) (v : α)
    (h : (keysA m).Nodup) : (keysA (setA m k v)).Nodup := by
  rw [keysA_setA]
  by_cases hk : hasKey m k
  · rw [if_pos hk]; exact h
  · rw [if_neg hk]
    simp only [List.nodup_append, List.nodup_cons]
    refine ⟨h, by simp, ?_⟩
    simp only [List.disjoint_singleton]
    exact fun hmem => not_mem_keysA m k (by simpa using hk) hmem


theorem dedup_inner_inv (q : String) (results : List Cand)
    (st : List String × List (String × String × Meta × ℚ))
    (h1 : (st.2.map Prod.fst).Nodup)
    (h2 : ∀ i ∈ st.2.map Prod.fst, st.1.contains i = true) :
    ((results.foldl (dedupStep q) st).2.map Prod.fst).Nodup ∧
    ∀ i ∈ (results.foldl (dedupStep q) st).2.map Prod.fst,
      (results.foldl (dedupStep q) st).1.contains i = true := by
  induction results generalizing st with
  | nil => exact ⟨h1, h2⟩
  | cons c rest ih =>
    simp only [List.foldl_cons]
    apply ih
    · rw [dedupStep]
      by_cases hc : st.1.contains c.1 = true
      · rw [if_pos hc]
        exact h1
      · rw [if_neg hc]
        simp only [List.map_append, List.map_cons, List.map_nil]
        rw [List.nodup_append]
        refine ⟨h1, by simp, ?_⟩
        simp only [List.disjoint_singleton]
        intro hmem
        exact hc (h2 c.1 hmem)
    · rw [dedupStep]
      by_cases hc : st.1.contains c.1 = true
      · rw [if_pos hc]
        exact h2
      · rw [if_neg hc]
        intro i hi
        simp only [List.map_append, List.map_cons, List.map_nil,
          List.mem_append, List.mem_singleton] at hi
        rcases hi with hi | rfl
        · have hmem : i ∈ st.1 := by simpa using h2 i hi
          simp [List.contains_cons, hmem]
        · simp [List.contains_cons]

theorem dedup_outer_inv (q : String) (rl : List (List Cand))
    (st : List String × List (String × String × Meta × ℚ))
    (h1 : (st.2.map Prod.fst).Nodup)
    (h2 : ∀ i ∈ st.2.map Prod.fst, st.1.contains i = true) :
    (((rl.foldl (fun st results => results.foldl (dedupStep q) st) st).2.map
        Prod.fst).Nodup) ∧
    ∀ i ∈ (rl.foldl (fun st results => results.foldl (dedupStep q) st) st).2.map
        Prod.fst,
      (rl.foldl (fun st results => results.foldl (dedupStep q) st) st).1.contains i
        = true := by
  induction rl generalizing st with
  | nil => exact ⟨h1, h2⟩
  | cons results rest ih =>
    simp only [List.foldl_cons]
    obtain ⟨g1, g2⟩ := dedup_inner_inv q results st h1 h2
    exact ih _ g1 g2

theorem nodup_ids_dedup (rl : List (List Cand)) (k : ℕ) (q : String) :
    ((deduplicate_results rl k q).map Prod.fst).Nodup := by
  rw [deduplicate_results]
  have hfin := (dedup_outer_inv q rl ([], []) (by simp) (by simp)).1
  set fin := rl.foldl (fun st results => results.foldl (dedupStep q) st) ([], [])
  have huniq : (((if q ≠ "" then sortDescBy (fun r => r.2.2.2) fin.2 else fin.2)).map
      Prod.fst).Nodup := by
    by_cases hq : q ≠ ""
    · rw [if_pos hq]
      have hperm := (perm_sortDescBy (fun r : String × String × Meta × ℚ => r.2.2.2)
        fin.2).map Prod.fst
      exact hperm.nodup_iff.mpr hfin
    · rw [if_neg hq]
      exact hfin
  have htake : ((((if q ≠ "" then sortDescBy (fun r => r.2.2.2) fin.2 else
      fin.2)).take k).map Prod.fst).Nodup := by
    refine List.Nodup.sublist ?_ huniq
    exact (List.take_sublist _ _).map Prod.fst
  have hmapmap : ((((if q ≠ "" then sortDescBy (fun r => r.2.2.2) fin.2 else
      fin.2)).take k).map (fun r => (r.1, r.2.1, r.2.2.1))).map Prod.fst =
      (((if q ≠ "" then sortDescBy (fun r => r.2.2.2) fin.2 else
      fin.2)).take k).map Prod.fst := by
    rw [List.map_map]
    rfl
  rw [hmapmap]
  exact htake

theorem nodup_ids_enhanced_search (basic : BasicO) (kwIdx : KWIdxO)
    (pyset : List String → List String) (query : String) (k : ℕ) :
    (((enhanced_search basic kwIdx pyset query k).1).map Prod.fst).Nodup := by
  rw [enhanced_search]
  by_cases hg : query = "" || pyStrip query = ""
  · rw [if_pos hg]
    simp
  · rw [if_neg hg]
    exact nodup_ids_dedup _ _ _


theorem hybrid_phase1_skip (vres : List Cand) (rrf : List (String × ℚ))
    (acc : List (String × String × Meta × ℚ)) (d : String)
    (h : ∀ c ∈ vres, c.1 ≠ d) :
    lookupA (vres.foldl (fun c r => if hasKey rrf r.1 then
        setA c r.1 (r.2.1, r.2.2, lookupD rrf r.1 0) else c) acc) d =
      lookupA acc d := by
  induction vres generalizing acc with
  | nil => rfl
  | cons hd tl ih =>
    simp only [List.foldl_cons]
    rw [ih _ (fun c hc => h c (List.mem_cons_of_mem _ hc))]
    by_cases hk : hasKey rrf hd.1 = true
    · rw [if_pos hk, lookupA_setA, if_neg (h hd (List.mem_cons_self hd tl))]
    · rw [if_neg hk]

theorem hybrid_phase1_found (vres : List Cand) (rrf : List (String × ℚ))
    (acc : List (String × String × Meta × ℚ)) (c : Cand)
    (hnd : (vres.map Prod.fst).Nodup) (hc : c ∈ vres)
    (hk : hasKey rrf c.1 = true) :
    lookupA (vres.foldl (fun c r => if hasKey rrf r.1 then
        setA c r.1 (r.2.1, r.2.2, lookupD rrf r.1 0) else c) acc) c.1 =
      some (c.2.1, c.2.2, lookupD rrf c.1 0) := by
  induction vres generalizing acc with
  | nil => simp at hc
  | cons hd tl ih =>
    rw [List.map_cons, List.nodup_cons] at hnd
    simp only [List.foldl_cons]
    rcases List.mem_cons.mp hc with rfl | hc'
    · have htl : ∀ e ∈ tl, e.1 ≠ c.1 := by
        intro e he heq
        exact hnd.1 (heq ▸ List.mem_map.mpr ⟨e, he, rfl⟩)
      rw [hybrid_phase1_skip tl rrf _ c.1 htl, if_pos hk, lookupA_setA, if_pos rfl]
    · have hne : hd.1 ≠ c.1 := by
        intro heq
        exact hnd.1 (heq ▸ List.mem_map.mpr ⟨c, hc', rfl⟩)
      by_cases hkh : hasKey rrf hd.1 = true
      · rw [if_pos hkh]
        exact ih _ hnd.2 hc'
      · rw [if_neg hkh]
        exact ih _ hnd.2 hc'

theorem hybrid_phase2_preserve (kwres : List KwHit) (rrf : List (String × ℚ))
    (acc : List (String × String × Meta × ℚ)) (d : String)
    (h : hasKey acc d = true) :
    lookupA (kwres.foldl (fun c r => if !hasKey c r.1 && hasKey rrf r.1 then
        setA c r.1 (r.2.2, ([] : Meta), lookupD rrf r.1 0) else c) acc) d =
      lookupA acc d := by
  induction kwres generalizing acc with
  | nil => rfl
  | cons hd tl ih =>
    simp only [List.foldl_cons]
    by_cases hg : (!hasKey acc hd.1 && hasKey rrf hd.1) = true
    · rw [if_pos hg]
      have hne : hd.1 ≠ d := by
        intro heq
        rw [heq, h] at hg
        simp at hg
      rw [ih _ (by rw [hasKey_setA, h]; simp), lookupA_setA, if_neg hne]
    · rw [if_neg hg]
      exact ih _ h

theorem hybrid_phase2_new (kwres : List KwHit) (rrf : List (String × ℚ))
    (acc : List (String × String × Meta × ℚ)) (d : String)
    (v : String × Meta × ℚ) (hacc : hasKey acc d = false)
    (h : lookupA (kwres.foldl (fun c r => if !hasKey c r.1 && hasKey rrf r.1 then
        setA c r.1 (r.2.2, ([] : Meta), lookupD rrf r.1 0) else c) acc) d =
      some v) :
    ∃ hkw ∈ kwres, hkw.1 = d ∧ v = (hkw.2.2, ([] : Meta), lookupD rrf d 0) := by
  induction kwres generalizing acc with
  | nil =>
    rw [List.foldl_nil, lookupA_not_hasKey acc d hacc] at h
    exact absurd h (by simp)
  | cons hd tl ih =>
    simp only [List.foldl_cons] at h
    by_cases hhd : hd.1 = d
    · by_cases hk : hasKey rrf d = true
      · have hg : (!hasKey acc hd.1 && hasKey rrf hd.1) = true := by
          rw [hhd, hacc, hk]
          rfl
        rw [if_pos hg] at h
        rw [hybrid_phase2_preserve tl rrf _ d
          (by rw [hasKey_setA]; simp [hhd])] at h
        rw [hhd] at h
        rw [lookupA_setA, if_pos rfl] at h
        obtain rfl : v = (hd.2.2, ([] : Meta), lookupD rrf d 0) :=
          (Option.some.inj h).symm
        exact ⟨hd, List.mem_cons_self hd tl, hhd, rfl⟩
      · have hg : (!hasKey acc hd.1 && hasKey rrf hd.1) = false := by
          rw [hhd]
          simp only [Bool.and_eq_false_iff]
          right
          simpa using hk
        rw [if_neg (by rw [hg]; simp)] at h
        obtain ⟨e, he, he1, he2⟩ := ih acc hacc h
        exact ⟨e, List.mem_cons_of_mem _ he, he1, he2⟩
    · by_cases hg : (!hasKey acc hd.1 && hasKey rrf hd.1) = true
      · rw [if_pos hg] at h
        have hacc' : hasKey (setA acc hd.1 (hd.2.2, ([] : Meta),
            lookupD rrf hd.1 0)) d = false := by
          rw [hasKey_setA, hacc]
          simpa using hhd
        obtain ⟨e, he, he1, he2⟩ := ih _ hacc' h
        exact ⟨e, List.mem_cons_of_mem _ he, he1, he2⟩
      · rw [if_neg hg] at h
        obtain ⟨e, he, he1, he2⟩ := ih acc hacc h
        exact ⟨e, List.mem_cons_of_mem _ he, he1, he2⟩

theorem nodup_keysA_hybrid_phase1 (vres : List Cand) (rrf : List (String × ℚ))
    (acc : List (String × String × Meta × ℚ)) (h : (keysA acc).Nodup) :
    (keysA (vres.foldl (fun c r => if hasKey rrf r.1 then
        setA c r.1 (r.2.1, r.2.2, lookupD rrf r.1 0) else c) acc)).Nodup := by
  induction vres generalizing acc with
  | nil => exact h
  | cons hd tl ih =>
    simp only [List.foldl_cons]
    apply ih
    by_cases hk : hasKey rrf hd.1 = true
    · rw [if_pos hk]
      exact nodup_keysA_setA _ _ _ h
    · rw [if_neg hk]
      exact h

theorem nodup_keysA_hybrid_phase2 (kwres : List KwHit) (rrf : List (String × ℚ))
    (acc : List (String × String × Meta × ℚ)) (h : (keysA acc).Nodup) :
    (keysA (kwres.foldl (fun c r => if !hasKey c r.1 && hasKey rrf r.1 then
        setA c r.1 (r.2.2, ([] : Meta), lookupD rrf r.1 0) else c) acc)).Nodup := by
  induction kwres generalizing acc with
  | nil => exact h
  | cons hd tl ih =>
    simp only [List.foldl_cons]
    apply ih
    by_cases hg : (!hasKey acc hd.1 && hasKey rrf hd.1) = true
    · rw [if_pos hg]
      exact nodup_keysA_setA _ _ _ h
    · rw [if_neg hg]
      exact h


/-- C10: in the RRF path of `hybrid_search`, every returned entry keeps
the payload from the first family that produced the docID in scan order:
a docID appearing in the (id-deduplicated) vector results is returned
with that vector entry's text and metadata — also when keyword search
found it too — while a docID found only by keyword search is returned
with the keyword content and empty `{}` metadata. -/
theorem c10_rrf_merge_payload_provenance (basic : BasicO) (kwIdx : KWIdxO)
    (pyset : List String → List String) (query : String) (k : ℕ) (alpha : ℚ)
    (vres : List Cand) (n1 : ℕ) (kwres : List KwHit)
    (out : List (String × String × Meta × ℚ)) (n : ℕ)
    (hq : pyStrip query ≠ "")
    (hes : enhanced_search basic kwIdx pyset query (k * 2) = (vres, n1))
    (hkw : kwIdx.searchQ query (k * 2) = some kwres)
    (hout : hybrid_search basic kwIdx pyset query k alpha true = (Except.ok out, n))
    (e : String × String × Meta × ℚ) (he : e ∈ out) :
    (vres.any (fun c => c.1 = e.1) = true →
      ∃ c ∈ vres, c.1 = e.1 ∧ e.2.1 = c.2.1 ∧ e.2.2.1 = c.2.2) ∧
    (vres.any (fun c => c.1 = e.1) = false →
      e.2.2.1 = ([] : Meta) ∧ ∃ h ∈ kwres, h.1 = e.1 ∧ e.2.1 = h.2.2) := by
  have hqe : query ≠ "" := fun h => hq (by rw [h]; rfl)
  have hnd : (vres.map Prod.fst).Nodup := by
    have := nodup_ids_enhanced_search basic kwIdx pyset query (k * 2)
    rw [hes] at this
    exact this
  rw [hybrid_search] at hout
  rw [if_neg (by simp [hq, hqe])] at hout
  simp only [hes, hkw] at hout
  rw [if_pos trivial] at hout
  rw [Prod.mk.injEq] at hout
  obtain ⟨hok, hn⟩ := hout
  rw [Except.ok.injEq] at hok
  subst hok
  obtain ⟨x, hx, hgx⟩ := List.mem_map.mp he
  have hx' := List.mem_of_mem_take hx
  rw [mem_sortDescBy] at hx'
  set rrf := reciprocal_rank_fusion 60
    [List.map (fun r => (r.1, (1 : ℚ))) vres,
     List.map (fun r => (r.1, r.2.1)) kwres] with hrrf
  have hnd1 : (keysA (vres.foldl (fun c r => if hasKey rrf r.1 then
      setA c r.1 (r.2.1, r.2.2, lookupD rrf r.1 0) else c) [])).Nodup :=
    nodup_keysA_hybrid_phase1 vres rrf [] (by simp [keysA])
  have hnd2 : (keysA (kwres.foldl (fun c r => if !hasKey c r.1 && hasKey rrf r.1 then
      setA c r.1 (r.2.2, ([] : Meta), lookupD rrf r.1 0) else c)
      (vres.foldl (fun c r => if hasKey rrf r.1 then
        setA c r.1 (r.2.1, r.2.2, lookupD rrf r.1 0) else c) []))).Nodup :=
    nodup_keysA_hybrid_phase2 kwres rrf _ hnd1
  have hlx : lookupA (kwres.foldl (fun c r => if !hasKey c r.1 && hasKey rrf r.1 then
      setA c r.1 (r.2.2, ([] : Meta), lookupD rrf r.1 0) else c)
      (vres.foldl (fun c r => if hasKey rrf r.1 then
        setA c r.1 (r.2.1, r.2.2, lookupD rrf r.1 0) else c) [])) x.1 =
      some x.2 :=
    lookupA_of_mem_nodup _ x.1 x.2 hnd2 hx'
  have he1 : e.1 = x.1 := by rw [← hgx]
  have he21 : e.2.1 = x.2.1 := by rw [← hgx]
  have he221 : e.2.2.1 = x.2.2.1 := by rw [← hgx]
  constructor
  · intro hv
    obtain ⟨c, hc, hcd⟩ := List.any_eq_true.mp hv
    have hcd' : c.1 = e.1 := by simpa using hcd
    have hrrfk : hasKey rrf c.1 = true := by
      rw [hrrf, hasKey_rrf]
      refine List.any_eq_true.mpr ⟨List.map (fun r => (r.1, (1 : ℚ))) vres,
        by simp, ?_⟩
      rw [list_any_map]
      exact List.any_eq_true.mpr ⟨c, hc, by simp⟩
    have h1 := hybrid_phase1_found vres rrf [] c hnd hc hrrfk
    have h2 : lookupA (kwres.foldl (fun c r => if !hasKey c r.1 && hasKey rrf r.1 then
        setA c r.1 (r.2.2, ([] : Meta), lookupD rrf r.1 0) else c)
        (vres.foldl (fun c r => if hasKey rrf r.1 then
          setA c r.1 (r.2.1, r.2.2, lookupD rrf r.1 0) else c) [])) c.1 =
        some (c.2.1, c.2.2, lookupD rrf c.1 0) := by
      rw [hybrid_phase2_preserve kwres rrf _ c.1 (by rw [hasKey, h1]; rfl)]
      exact h1
    have hx1 : x.1 = c.1 := by rw [← he1, ← hcd']
    rw [hx1] at hlx
    rw [hlx] at h2
    have hx2 : x.2 = (c.2.1, c.2.2, lookupD rrf c.1 0) := Option.some.inj h2
    refine ⟨c, hc, hcd', ?_, ?_⟩
    · rw [he21, hx2]
    · rw [he221, hx2]
  · intro hv
    have hnone : ∀ c ∈ vres, c.1 ≠ e.1 := by
      intro c hc heq
      rw [List.any_eq_false] at hv
      exact absurd (by simpa using heq) (by simpa using hv c hc)
    have h1 : lookupA (vres.foldl (fun c r => if hasKey rrf r.1 then
        setA c r.1 (r.2.1, r.2.2, lookupD rrf r.1 0) else c) []) e.1 = none := by
      rw [hybrid_phase1_skip vres rrf [] e.1 hnone]
      rfl
    have hK1 : hasKey (vres.foldl (fun c r => if hasKey rrf r.1 then
        setA c r.1 (r.2.1, r.2.2, lookupD rrf r.1 0) else c) []) e.1 = false := by
      rw [hasKey, h1]
      rfl
    rw [← he1] at hlx
    obtain ⟨hkw', hhm, hh1, hh2⟩ := hybrid_phase2_new kwres rrf _ e.1 x.2 hK1 hlx
    refine ⟨?_, hkw', hhm, hh1, ?_⟩
    · rw [he221, hh2]
    · rw [he21, hh2]

/-- C10 witness: the provenance law applied to a concrete run — the
vector family returns doc `A`, the keyword backend doc `B`; the fused
output keeps `A`'s vector payload and gives `B` the keyword content with
empty metadata. -/
theorem c10_rrf_merge_payload_provenance_witness :
    pyStrip "abc" ≠ "" ∧
    enhanced_search (fun _ _ => some [("A", "", ([] : Meta))])
      ⟨false, fun _ _ => some [("B", (3 : ℚ), "tb")]⟩ id "abc" (5 * 2) =
      ([("A", "", ([] : Meta))], 1) ∧
    hybrid_search (fun _ _ => some [("A", "", ([] : Meta))])
      ⟨false, fun _ _ => some [("B", (3 : ℚ), "tb")]⟩ id "abc" 5 (1/2) true =
      (Except.ok [("A", "", ([] : Meta), 1/61), ("B", "tb", ([] : Meta), 1/61)],
        2) ∧
    (∃ c ∈ [("A", "", ([] : Meta))], c.1 = "A" ∧ "" = c.2.1 ∧ ([] : Meta) = c.2.2) ∧
    (∃ h ∈ [("B", (3 : ℚ), "tb")], h.1 = "B" ∧ "tb" = h.2.2) := by
  have hes : enhanced_search (fun _ _ => some [("A", "", ([] : Meta))])
      ⟨false, fun _ _ => some [("B", (3 : ℚ), "tb")]⟩ id "abc" (5 * 2) =
      ([("A", "", ([] : Meta))], 1) := by decide
  have hout : hybrid_search (fun _ _ => some [("A", "", ([] : Meta))])
      ⟨false, fun _ _ => some [("B", (3 : ℚ), "tb")]⟩ id "abc" 5 (1/2) true =
      (Except.ok [("A", "", ([] : Meta), 1/61), ("B", "tb", ([] : Meta), 1/61)],
        2) := by
    norm_num +decide [hybrid_search, hes, reciprocal_rank_fusion, rrfLoop,
      bump, setA, hasKey, lookupA, lookupD, sortDescBy, insertDesc]
  have hA := (c10_rrf_merge_payload_provenance
      (fun _ _ => some [("A", "", ([] : Meta))])
      ⟨false, fun _ _ => some [("B", (3 : ℚ), "tb")]⟩ id "abc" 5 (1/2)
      [("A", "", ([] : Meta))] 1 [("B", (3 : ℚ), "tb")]
      [("A", "", ([] : Meta), 1/61), ("B", "tb", ([] : Meta), 1/61)] 2
      (by decide) hes rfl hout ("A", "", ([] : Meta), 1/61)
      (List.mem_cons_self _ _)).1 (by decide)
  have hB := (c10_rrf_merge_payload_provenance
      (fun _ _ => some [("A", "", ([] : Meta))])
      ⟨false, fun _ _ => some [("B", (3 : ℚ), "tb")]⟩ id "abc" 5 (1/2)
      [("A", "", ([] : Meta))] 1 [("B", (3 : ℚ), "tb")]
      [("A", "", ([] : Meta), 1/61), ("B", "tb", ([] : Meta), 1/61)] 2
      (by decide) hes rfl hout ("B", "tb", ([] : Meta), 1/61)
      (List.mem_cons_of_mem _ (List.mem_cons_self _ _))).2 (by decide)
  exact ⟨by decide, hes, hout, hA, hB.2⟩

end CCA
